import Mathlib

/-!
Verification of the image split-and-expand application.

The development shallowly embeds the TypeScript sources:
  - src/types.ts                (data model)
  - src/services/imageUtils.ts  (splitImage)
  - the Gemini client module    (expandImageWithGemini)
  - the main App component      (handleFilesAdded, processImagePart,
                                 startProcessing, retryPart, removeItem)
  - src/components/Dropzone.tsx (traverseFileTree, handleFileSelect)

Pure functions become Lean functions; the asynchronous state-update
pipeline becomes an explicit small-step transition system whose atomic
steps are exactly the functional setItems updates of the code.
-/

namespace SplitExpand

/-! ## Data model (src/types.ts) -/

/-- Mirrors enum SplitDirection. -/
inductive SplitDirection
  | horizontal
  | vertical
  deriving DecidableEq, Repr

/-- Mirrors enum ProcessStatus. -/
inductive ProcessStatus
  | idle
  | splitting
  | expanding
  | done
  | error
  deriving DecidableEq, Repr

/-- The fields of a browser File object that the program inspects. -/
structure FileMeta where
  name : String
  mimeType : String
  deriving DecidableEq, Repr

/-- Embedding of the JS string method startsWith used by the MIME
filters: the second argument heads the first. -/
def startsWith (s pre : String) : Bool := pre.data.isPrefixOf s.data

/-- Mirrors the splitPart1 and splitPart2 records of ProcessedImage. -/
structure SplitPart where
  url : Option String
  expandedUrl : Option String
  status : ProcessStatus
  deriving DecidableEq, Repr

/-- Mirrors interface ProcessedImage. -/
structure ProcessedImage where
  id : String
  originalUrl : String
  file : FileMeta
  splitPart1 : SplitPart
  splitPart2 : SplitPart
  deriving DecidableEq, Repr

/-- The part selector of processImagePart: partNumber of type 1 | 2. -/
inductive PartNumber
  | p1
  | p2
  deriving DecidableEq, Repr

/-- The sibling half of a given half. -/
def PartNumber.other : PartNumber → PartNumber
  | .p1 => .p2
  | .p2 => .p1

/-- Reads the half selected by a part number. -/
def getPart (i : ProcessedImage) : PartNumber → SplitPart
  | .p1 => i.splitPart1
  | .p2 => i.splitPart2

/-- Applies a record update to the half selected by a part number,
mirroring the computed partKey spread updates of the code. -/
def setPart (i : ProcessedImage) (p : PartNumber) (f : SplitPart → SplitPart) :
    ProcessedImage :=
  match p with
  | .p1 => { i with splitPart1 := f i.splitPart1 }
  | .p2 => { i with splitPart2 := f i.splitPart2 }

/-! ## Image geometry (src/services/imageUtils.ts) -/

/-- A decoded image: dimensions plus a pixel function. -/
structure Image where
  width : Nat
  height : Nat
  pix : Nat → Nat → Nat

/-- One canvas drawImage call with equal source and destination sizes:
copy a w times h rectangle whose top-left source corner is (sx, sy). -/
def crop (img : Image) (sx sy w h : Nat) : Image :=
  { width := w, height := h, pix := fun x y => img.pix (sx + x) (sy + y) }

/-- Mirrors splitImage of src/services/imageUtils.ts.  For a horizontal
split the canvas is set to halfWidth times h and both drawImage calls copy
a halfWidth-wide rectangle (the left one from x = 0, the right one from
x = halfWidth); the vertical case is symmetric. -/
def splitImage (img : Image) (direction : SplitDirection) : Image × Image :=
  match direction with
  | .horizontal =>
    let halfWidth := img.width / 2
    (crop img 0 0 halfWidth img.height, crop img halfWidth 0 halfWidth img.height)
  | .vertical =>
    let halfHeight := img.height / 2
    (crop img 0 0 img.width halfHeight, crop img 0 halfHeight img.width halfHeight)

/-- A concrete 3 by 2 image used to test splitImage on odd width. -/
def demoImage : Image :=
  { width := 3, height := 2, pix := fun _ _ => 0 }

/-! ## List-level state updates of the App component

Each definition mirrors one functional setItems update. -/

/-- Mirrors the map-over-items idiom: prev.map applies f to the items
whose id matches and returns every other item unchanged. -/
def mapItem (itemId : String) (f : ProcessedImage → ProcessedImage)
    (items : List ProcessedImage) : List ProcessedImage :=
  items.map fun i => if i.id == itemId then f i else i

/-- The per-item record update that sets both halves to Splitting. -/
def setSplitting (i : ProcessedImage) : ProcessedImage :=
  { i with
    splitPart1 := { i.splitPart1 with status := .splitting }
    splitPart2 := { i.splitPart2 with status := .splitting } }

/-- The update in startProcessing that sets both halves to Splitting. -/
def markSplitting (itemId : String) (items : List ProcessedImage) :
    List ProcessedImage :=
  mapItem itemId setSplitting items

/-- The per-item record update after splitImage resolves: store both
cropped urls and set both halves back to Idle. -/
def storeCrops (part1 part2 : String) (i : ProcessedImage) : ProcessedImage :=
  { i with
    splitPart1 := { i.splitPart1 with url := some part1, status := .idle }
    splitPart2 := { i.splitPart2 with url := some part2, status := .idle } }

/-- The update in startProcessing after splitImage resolves. -/
def setSplitResult (itemId part1 part2 : String) (items : List ProcessedImage) :
    List ProcessedImage :=
  mapItem itemId (storeCrops part1 part2) items

/-- The per-half record update to status Expanding. -/
def setExpanding (p : PartNumber) (i : ProcessedImage) : ProcessedImage :=
  setPart i p fun pt => { pt with status := .expanding }

/-- First update of processImagePart: status to Expanding. -/
def markExpanding (itemId : String) (p : PartNumber) (items : List ProcessedImage) :
    List ProcessedImage :=
  mapItem itemId (setExpanding p) items

/-- The per-half record update storing the expansion, status Done. -/
def setDone (p : PartNumber) (expanded : String) (i : ProcessedImage) : ProcessedImage :=
  setPart i p fun pt => { pt with expandedUrl := some expanded, status := .done }

/-- Success update of processImagePart: store the expanded url, status Done. -/
def markDone (itemId : String) (p : PartNumber) (expanded : String)
    (items : List ProcessedImage) : List ProcessedImage :=
  mapItem itemId (setDone p expanded) items

/-- The per-half record update to status Error. -/
def setError (p : PartNumber) (i : ProcessedImage) : ProcessedImage :=
  setPart i p fun pt => { pt with status := .error }

/-- Failure update of processImagePart: status Error. -/
def markError (itemId : String) (p : PartNumber) (items : List ProcessedImage) :
    List ProcessedImage :=
  mapItem itemId (setError p) items

/-- Mirrors removeItem: prev.filter keeps the items whose id differs. -/
def removeItem (itemId : String) (items : List ProcessedImage) :
    List ProcessedImage :=
  items.filter fun i => !(i.id == itemId)

/-! ## Expander client (the Gemini service module) -/

/-- Mirrors interface GeminiSettings; the empty string models an absent
(undefined or empty, both falsy) optional field. -/
structure GeminiSettings where
  apiKey : String
  baseUrl : String
  modelName : String
  deriving DecidableEq, Repr

/-- The inlineData field of one response part. -/
structure RespInlineData where
  mimeType : Option String
  data : Option String
  deriving DecidableEq, Repr

/-- One part of the generated content. -/
structure RespPart where
  text : Option String
  inlineData : Option RespInlineData
  deriving DecidableEq, Repr

/-- The content field of a candidate. -/
structure RespContent where
  parts : Option (List RespPart)
  deriving DecidableEq, Repr

/-- One response candidate. -/
structure RespCandidate where
  content : Option RespContent
  deriving DecidableEq, Repr

/-- The response of ai.models.generateContent. -/
structure GenResponse where
  candidates : Option (List RespCandidate)
  deriving DecidableEq, Repr

/-- The single request the client sends: model name, the fixed prompt,
the inline image and the fixed target aspect ratio. -/
structure GenRequest where
  model : String
  promptText : String
  mimeType : String
  data : String
  aspectRatio : String
  deriving DecidableEq, Repr

/-- The fixed instructional prompt of the client. -/
def expandPrompt : String :=
  "This is a cropped section of a larger image. Generate a new, complete high-quality version of this image that fits a 3:4 aspect ratio. Seamlessly extend the background and content to fill the new aspect ratio while preserving the original style, lighting, and details."

/-- The default model identifier. -/
def defaultModel : String := "gemini-2.5-flash-image"

/-- The missing-credential error message. -/
def apiKeyMissingMsg : String := "API Key is missing. Please configure it in settings."

/-- The no-image-payload error message. -/
def noImageMsg : String :=
  "No image data returned from Gemini. Please check if the selected model supports image generation."

/-- Mirrors the header strip: index 1 of base64Image.split(comma), falling
back to the whole string when that element is absent or empty (falsy). -/
def cleanBase64 (s : String) : String :=
  match (s.splitOn ",").drop 1 with
  | [] => s
  | t :: _ => if t = "" then s else t

/-- The request the client builds from the image and the settings. -/
def mkRequest (base64Image : String) (settings : GeminiSettings) : GenRequest :=
  { model := if settings.modelName = "" then defaultModel else settings.modelName
    promptText := expandPrompt
    mimeType := "image/png"
    data := cleanBase64 base64Image
    aspectRatio := "3:4" }

/-- The response scan: the first part carrying a truthy inlineData.data. -/
def findInlineData : List RespPart → Option String
  | [] => none
  | part :: rest =>
    match part.inlineData with
    | some d =>
      match d.data with
      | some s => if s = "" then findInlineData rest else some s
      | none => findInlineData rest
    | none => findInlineData rest

/-- The optional chain candidates at 0, then content, then parts. -/
def responseParts (r : GenResponse) : Option (List RespPart) :=
  ((r.candidates.bind fun cs => cs.head?).bind fun c => c.content).bind fun ct => ct.parts

/-- The first image payload of a response, if any. -/
def firstImagePayload (r : GenResponse) : Option String :=
  match responseParts r with
  | some parts => findInlineData parts
  | none => none

/-- Mirrors expandImageWithGemini.  The network call is a parameter: an
erroring promise is an error value.  The function throws when no key is
configured, propagates a network error (the catch block logs and
rethrows), throws when no image payload is found, and otherwise wraps
the first payload as a png data url. -/
def expandImageWithGemini (base64Image : String) (settings : GeminiSettings)
    (call : GenRequest → Except String GenResponse) : Except String String :=
  if settings.apiKey = "" then .error apiKeyMissingMsg
  else
    match call (mkRequest base64Image settings) with
    | .error e => .error e
    | .ok response =>
      match responseParts response with
      | some parts =>
        match findInlineData parts with
        | some payload => .ok ("data:image/png;base64," ++ payload)
        | none => .error noImageMsg
      | none => .error noImageMsg

/-! ## Upload path (src/components/Dropzone.tsx and handleFilesAdded) -/

/-- A dropped file-system entry: a file or a directory with entries. -/
inductive FsEntry
  | file (f : FileMeta)
  | directory (name : String) (entries : List FsEntry)

/-- Mirrors traverseFileTree: keep a file when its MIME type starts with
image/, recurse into directories and flatten the results in order. -/
def traverseFileTree : FsEntry → List FileMeta
  | .file f => if startsWith f.mimeType "image/" then [f] else []
  | .directory _ entries => entries.attach.foldr
      (fun e acc => traverseFileTree e.val ++ acc) []
decreasing_by
  simp_wf
  have := List.sizeOf_lt_of_mem e.property
  omega

/-- Mirrors handleFileSelect: filter the chosen files to image MIME types. -/
def handleFileSelect (files : List FileMeta) : List FileMeta :=
  files.filter fun f => startsWith f.mimeType "image/"

/-- The initial Half record of a freshly uploaded item. -/
def initPart : SplitPart := { url := none, expandedUrl := none, status := .idle }

/-- Mirrors handleFilesAdded: one pending item per file, prepended to the
previous list.  Identifier assignment (uuid) and data-url reading are
oracles. -/
def handleFilesAdded (mkId readUrl : FileMeta → String)
    (files : List FileMeta) (prev : List ProcessedImage) : List ProcessedImage :=
  (files.map fun f =>
    { id := mkId f, originalUrl := readUrl f, file := f,
      splitPart1 := initPart, splitPart2 := initPart }) ++ prev

/-! ## Item lookup and the processing pipeline of the App component -/

/-- Mirrors items.find on an id, as used by retryPart. -/
def findItem (items : List ProcessedImage) (itemId : String) : Option ProcessedImage :=
  items.find? fun i => i.id == itemId

/-- The status a given half carries in an item list, when present. -/
def statusOf (items : List ProcessedImage) (itemId : String) (p : PartNumber) :
    Option ProcessStatus :=
  (findItem items itemId).map fun i => (getPart i p).status

/-- An external call issued by the pipeline: a local canvas split or a
network expansion request. -/
inductive ExtCall
  | splitCall (itemId : String) (src : String)
  | expandCall (itemId : String) (p : PartNumber) (payload : String)
  deriving DecidableEq, Repr

/-- Models the outcome of one awaited splitImage invocation: none is the
catch branch (decode or canvas failure), some carries the two crops. -/
def SplitOracle : Type := SplitDirection → String → Option (String × String)

/-- The filter of startProcessing: items whose halves are both Idle. -/
def bothIdle (i : ProcessedImage) : Bool :=
  i.splitPart1.status == ProcessStatus.idle && i.splitPart2.status == ProcessStatus.idle

/-- The for-loop of startProcessing over the snapshot of items to
process: mark Splitting, await the split, then either log the failure
and continue, or store the crops and dispatch both expansion calls
(whose synchronous first step sets Expanding). -/
def processBatch (dir : SplitDirection) (split : SplitOracle) :
    List ProcessedImage → List ProcessedImage → List ProcessedImage × List ExtCall
  | [], cur => (cur, [])
  | item :: rest, cur =>
    let afterMark := markSplitting item.id cur
    match split dir item.originalUrl with
    | none =>
      let out := processBatch dir split rest afterMark
      (out.1, .splitCall item.id item.originalUrl :: out.2)
    | some (part1, part2) =>
      let afterSplit := setSplitResult item.id part1 part2 afterMark
      let afterDispatch := markExpanding item.id .p2 (markExpanding item.id .p1 afterSplit)
      let out := processBatch dir split rest afterDispatch
      (out.1,
        .splitCall item.id item.originalUrl ::
          .expandCall item.id .p1 part1 ::
          .expandCall item.id .p2 part2 :: out.2)

/-- Mirrors startProcessing: bail out when no key is configured (the
settings dialog opens instead), otherwise run the batch over the
snapshot of items whose halves are both Idle. -/
def startProcessing (settings : GeminiSettings) (dir : SplitDirection)
    (split : SplitOracle) (items : List ProcessedImage) :
    List ProcessedImage × List ExtCall :=
  if settings.apiKey = "" then (items, [])
  else processBatch dir split (items.filter bothIdle) items

/-- Mirrors retryPart: with a configured key, a found item and a truthy
stored crop, re-dispatch the expansion of exactly that half; in every
other case do nothing. -/
def retryPart (settings : GeminiSettings) (items : List ProcessedImage)
    (itemId : String) (p : PartNumber) : List ProcessedImage × List ExtCall :=
  if settings.apiKey = "" then (items, [])
  else
    match findItem items itemId with
    | none => (items, [])
    | some item =>
      match (getPart item p).url with
      | none => (items, [])
      | some u =>
        if u = "" then (items, [])
        else (markExpanding itemId p items, [.expandCall itemId p u])

/-- A state update touches only the targeted half of the targeted item:
every item keeps its position, id, source url, file and sibling half,
and items with another id are untouched. -/
def FramePreserving (F : List ProcessedImage → List ProcessedImage)
    (itemId : String) (p : PartNumber) : Prop :=
  ∀ (items : List ProcessedImage) (n : Nat) (i : ProcessedImage),
    items[n]? = some i →
    ∃ j, (F items)[n]? = some j ∧ j.id = i.id ∧ j.originalUrl = i.originalUrl ∧
      j.file = i.file ∧ getPart j p.other = getPart i p.other ∧
      (i.id ≠ itemId → j = i)

/-! ## The event-level transition system of the App component -/

/-- One atomic functional setItems update of the App component. -/
inductive Update
  | addItems (newItems : List ProcessedImage)
  | markSplitting (itemId : String)
  | setSplitResult (itemId part1 part2 : String)
  | markExpanding (itemId : String) (p : PartNumber)
  | markDone (itemId : String) (p : PartNumber) (expanded : String)
  | markError (itemId : String) (p : PartNumber)
  | removeItem (itemId : String)
  | clearAll
  deriving DecidableEq, Repr

/-- Applies one update to the item list exactly as its setItems does. -/
def applyUpdate : Update → List ProcessedImage → List ProcessedImage
  | .addItems newItems, items => newItems ++ items
  | .markSplitting itemId, items => markSplitting itemId items
  | .setSplitResult itemId u1 u2, items => setSplitResult itemId u1 u2 items
  | .markExpanding itemId p, items => markExpanding itemId p items
  | .markDone itemId p e, items => markDone itemId p e items
  | .markError itemId p, items => markError itemId p items
  | .removeItem itemId, items => removeItem itemId items
  | .clearAll, _ => []

/-- Applies a list of updates from left to right. -/
def applyTrace (h : List Update) (items : List ProcessedImage) : List ProcessedImage :=
  h.foldl (fun cur u => applyUpdate u cur) items

/-- The item list after the first n updates of a trace, starting empty. -/
def itemsAt (h : List Update) (n : Nat) : List ProcessedImage :=
  applyTrace (h.take n) []

/-- The full application state: the stored key, the rendered item list,
the remaining snapshot of a running batch, the at most one in-flight
split (the processing loop awaits each before the next), the in-flight
expansion calls, and the ghost list of identifiers ever issued (modelling
uuid freshness). -/
structure AppState where
  apiKey : String
  items : List ProcessedImage
  batch : List ProcessedImage
  pendingSplit : Option (String × String)
  pendingExpands : List (String × PartNumber)
  usedIds : List String

/-- The initial state: a stored key and nothing else. -/
def initState (k : String) : AppState :=
  { apiKey := k, items := [], batch := [], pendingSplit := none,
    pendingExpands := [], usedIds := [] }

/-- One event of the application, emitting its setItems updates.
Preconditions mirror the code: uploads carry fresh uuid identifiers and
pending halves; startProcessing requires a configured key and no run in
progress (the start button is disabled while isProcessing) and snapshots
the items with both halves Idle; each loop iteration marks one snapshot
item Splitting and awaits its split, whose resolution either only logs
(failure) or stores the crops and synchronously dispatches the two
expansion calls; an expansion resolution marks Done or Error whether or
not the item still exists; retry (the button is rendered only on a half
in Error status) requires a configured key, a found item and a truthy
stored crop; saving settings, removal and clear-all are always
available, and in-flight calls are never cancelled. -/
inductive Step : AppState → List Update → AppState → Prop
  | upload (s : AppState) (newItems : List ProcessedImage)
      (hfresh : ∀ i ∈ newItems, i.id ∉ s.usedIds)
      (hnodup : (newItems.map fun i => i.id).Nodup)
      (hinit : ∀ i ∈ newItems, i.splitPart1 = initPart ∧ i.splitPart2 = initPart) :
      Step s [.addItems newItems]
        { s with items := newItems ++ s.items,
                 usedIds := (newItems.map fun i => i.id) ++ s.usedIds }
  | saveKey (s : AppState) (k : String) :
      Step s [] { s with apiKey := k }
  | startBatch (s : AppState) (hkey : s.apiKey ≠ "")
      (hbatch : s.batch = []) (hsplit : s.pendingSplit = none) :
      Step s [] { s with batch := s.items.filter bothIdle }
  | batchStep (s : AppState) (item : ProcessedImage) (rest : List ProcessedImage)
      (hbatch : s.batch = item :: rest) (hsplit : s.pendingSplit = none) :
      Step s [.markSplitting item.id]
        { s with items := markSplitting item.id s.items, batch := rest,
                 pendingSplit := some (item.id, item.originalUrl) }
  | splitFail (s : AppState) (itemId src : String)
      (hsplit : s.pendingSplit = some (itemId, src)) :
      Step s [] { s with pendingSplit := none }
  | splitOk (s : AppState) (itemId src u1 u2 : String)
      (hsplit : s.pendingSplit = some (itemId, src)) :
      Step s [.setSplitResult itemId u1 u2, .markExpanding itemId PartNumber.p1,
          .markExpanding itemId PartNumber.p2]
        { s with
            items := markExpanding itemId PartNumber.p2 (markExpanding itemId PartNumber.p1
              (setSplitResult itemId u1 u2 s.items)),
            pendingSplit := none,
            pendingExpands :=
              (itemId, PartNumber.p1) :: (itemId, PartNumber.p2) :: s.pendingExpands }
  | expandOk (s : AppState) (itemId : String) (p : PartNumber) (expanded : String)
      (hpend : (itemId, p) ∈ s.pendingExpands) :
      Step s [.markDone itemId p expanded]
        { s with items := markDone itemId p expanded s.items,
                 pendingExpands := s.pendingExpands.erase (itemId, p) }
  | expandFail (s : AppState) (itemId : String) (p : PartNumber)
      (hpend : (itemId, p) ∈ s.pendingExpands) :
      Step s [.markError itemId p]
        { s with items := markError itemId p s.items,
                 pendingExpands := s.pendingExpands.erase (itemId, p) }
  | retry (s : AppState) (itemId : String) (p : PartNumber)
      (item : ProcessedImage) (u : String)
      (hkey : s.apiKey ≠ "")
      (hfind : findItem s.items itemId = some item)
      (hurl : (getPart item p).url = some u) (hne : u ≠ "")
      (hstatus : (getPart item p).status = ProcessStatus.error) :
      Step s [.markExpanding itemId p]
        { s with items := markExpanding itemId p s.items,
                 pendingExpands := (itemId, p) :: s.pendingExpands }
  | removeStep (s : AppState) (itemId : String) :
      Step s [.removeItem itemId] { s with items := removeItem itemId s.items }
  | clearStep (s : AppState) :
      Step s [.clearAll] { s with items := [] }

/-- The reachable states, carrying the full update trace. -/
inductive Reach : AppState → List Update → Prop
  | init (k : String) : Reach (initState k) []
  | step {s : AppState} {h : List Update} {us : List Update} {s2 : AppState} :
      Reach s h → Step s us s2 → Reach s2 (h ++ us)

/-- The rank of a status in the claimed forward order. -/
def statusRank : ProcessStatus → Nat
  | .idle => 0
  | .splitting => 1
  | .expanding => 2
  | .done => 3
  | .error => 3

/-- The transition relation claim C2 asserts: strictly forward through
Idle, Splitting, Expanding, then Done or Error, plus the single backward
retry edge from Error to Expanding. -/
def claimedTrans (a b : ProcessStatus) : Bool :=
  decide (statusRank a < statusRank b) || (a == ProcessStatus.error && b == ProcessStatus.expanding)

/-- The transition relation the code realizes at setItems granularity:
the claimed edges restricted to single hops, the skip from Idle straight
to Expanding (dispatch), plus the return from Splitting to Idle when the
split result is stored. -/
def actualTrans (a b : ProcessStatus) : Bool :=
  match a, b with
  | .idle, .splitting => true
  | .splitting, .idle => true
  | .idle, .expanding => true
  | .expanding, .done => true
  | .expanding, .error => true
  | .error, .expanding => true
  | _, _ => false

/-- One observable transition of the item list is sound with respect to
a transition relation: a changed status of an existing half follows the
relation, and a half that appears does so in Idle. -/
def StepOK (R : ProcessStatus → ProcessStatus → Bool)
    (pre post : List ProcessedImage) : Prop :=
  (∀ itemId p a b, statusOf pre itemId p = some a → statusOf post itemId p = some b →
    a ≠ b → R a b = true) ∧
  (∀ itemId p b, statusOf pre itemId p = none → statusOf post itemId p = some b →
    b = ProcessStatus.idle)

/-- Soundness of every consecutive pair of item-list states of a trace. -/
def TraceOK (R : ProcessStatus → ProcessStatus → Bool) (h : List Update) : Prop :=
  ∀ n : Nat, StepOK R (itemsAt h n) (itemsAt h (n + 1))

/-- The inductive invariant of reachable states. -/
structure Inv (s : AppState) : Prop where
  itemsNodup : (s.items.map fun i => i.id).Nodup
  itemsUsed : ∀ i ∈ s.items, i.id ∈ s.usedIds
  urlNone : ∀ i ∈ s.items, ∀ p, ((getPart i p).status = ProcessStatus.idle ∨
    (getPart i p).status = ProcessStatus.splitting) → (getPart i p).url = none
  batchIdle : ∀ b ∈ s.batch, ∀ i ∈ s.items, i.id = b.id →
    i.splitPart1.status = ProcessStatus.idle ∧ i.splitPart2.status = ProcessStatus.idle
  batchUsed : ∀ b ∈ s.batch, b.id ∈ s.usedIds
  batchNodup : (s.batch.map fun i => i.id).Nodup
  batchNoExpand : ∀ b ∈ s.batch, ∀ p, (b.id, p) ∉ s.pendingExpands
  splitStatus : ∀ itemId src, s.pendingSplit = some (itemId, src) →
    ∀ i ∈ s.items, i.id = itemId →
      i.splitPart1.status = ProcessStatus.splitting ∧
      i.splitPart2.status = ProcessStatus.splitting
  splitUsed : ∀ itemId src, s.pendingSplit = some (itemId, src) → itemId ∈ s.usedIds
  splitNotBatch : ∀ itemId src, s.pendingSplit = some (itemId, src) →
    ∀ b ∈ s.batch, b.id ≠ itemId
  splitNoExpand : ∀ itemId src, s.pendingSplit = some (itemId, src) →
    ∀ p, (itemId, p) ∉ s.pendingExpands
  expandStatus : ∀ itemId p, (itemId, p) ∈ s.pendingExpands →
    ∀ i ∈ s.items, i.id = itemId → (getPart i p).status = ProcessStatus.expanding
  expandUsed : ∀ itemId p, (itemId, p) ∈ s.pendingExpands → itemId ∈ s.usedIds
  expandNodup : s.pendingExpands.Nodup

/-- A pending item used in the concrete counterexample trace. -/
def traceItem : ProcessedImage :=
  { id := "t", originalUrl := "src", file := { name := "t.png", mimeType := "image/png" },
    splitPart1 := initPart, splitPart2 := initPart }

/-- The trace item after the Splitting mark. -/
def traceItemSplitting : ProcessedImage :=
  { id := "t", originalUrl := "src", file := { name := "t.png", mimeType := "image/png" },
    splitPart1 := { url := none, expandedUrl := none, status := .splitting },
    splitPart2 := { url := none, expandedUrl := none, status := .splitting } }

/-- The trace item after the split result is stored and both halves are
dispatched. -/
def traceItemExpanding : ProcessedImage :=
  { id := "t", originalUrl := "src", file := { name := "t.png", mimeType := "image/png" },
    splitPart1 := { url := some "c1", expandedUrl := none, status := .expanding },
    splitPart2 := { url := some "c2", expandedUrl := none, status := .expanding } }

/-- The concrete trace: upload, mark Splitting, store the split result
(both halves back to Idle), dispatch both halves to Expanding. -/
def demoTrace : List Update :=
  [.addItems [traceItem], .markSplitting "t", .setSplitResult "t" "c1" "c2",
    .markExpanding "t" PartNumber.p1, .markExpanding "t" PartNumber.p2]

/-! ## Concrete records for closed instances -/

/-- A settings record with a configured key for concrete runs. -/
def demoSettings : GeminiSettings := { apiKey := "key", baseUrl := "", modelName := "" }

/-- Response parts: a text part followed by the image payload part. -/
def demoParts : List RespPart :=
  [{ text := some "ok", inlineData := none },
   { text := none,
     inlineData := some { mimeType := some "image/png", data := some "XYZ" } }]

/-- A response whose second part carries the image payload. -/
def demoResponse : GenResponse :=
  { candidates := some [{ content := some { parts := some demoParts } }] }

/-- A freshly uploaded pending item. -/
def demoIdleItem : ProcessedImage :=
  { id := "b", originalUrl := "orig2", file := { name := "g.png", mimeType := "image/png" },
    splitPart1 := initPart, splitPart2 := initPart }

/-- An item with stored crops whose first half errored and whose second
half finished. -/
def demoItem : ProcessedImage :=
  { id := "a", originalUrl := "orig", file := { name := "f.png", mimeType := "image/png" },
    splitPart1 := { url := some "u1", expandedUrl := none, status := .error },
    splitPart2 := { url := some "u2", expandedUrl := some "e2", status := .done } }

/-! ## Basic lemmas about part and list updates -/

/-- setPart keeps the id. -/
theorem setPart_id (i : ProcessedImage) (p : PartNumber) (g : SplitPart → SplitPart) :
    (setPart i p g).id = i.id := by cases p <;> rfl

/-- setPart keeps the source url. -/
theorem setPart_originalUrl (i : ProcessedImage) (p : PartNumber) (g : SplitPart → SplitPart) :
    (setPart i p g).originalUrl = i.originalUrl := by cases p <;> rfl

/-- setPart keeps the file. -/
theorem setPart_file (i : ProcessedImage) (p : PartNumber) (g : SplitPart → SplitPart) :
    (setPart i p g).file = i.file := by cases p <;> rfl

/-- setPart leaves the sibling half untouched. -/
theorem setPart_other (i : ProcessedImage) (p : PartNumber) (g : SplitPart → SplitPart) :
    getPart (setPart i p g) p.other = getPart i p.other := by cases p <;> rfl

/-- setPart rewrites its own half through g. -/
theorem setPart_self (i : ProcessedImage) (p : PartNumber) (g : SplitPart → SplitPart) :
    getPart (setPart i p g) p = g (getPart i p) := by cases p <;> rfl

/-- Looking up an id in a mapItem image: the transform applies exactly
when the found item carries the targeted id. -/
theorem findItem_mapItem (targetId itemId : String) (f : ProcessedImage → ProcessedImage)
    (hf : ∀ i, (f i).id = i.id) (items : List ProcessedImage) :
    findItem (mapItem targetId f items) itemId =
      (findItem items itemId).map fun i => if i.id == targetId then f i else i := by
  unfold findItem mapItem
  rw [List.find?_map]
  have hpred : ((fun i : ProcessedImage => i.id == itemId) ∘
      fun i => if i.id == targetId then f i else i) =
      fun i : ProcessedImage => i.id == itemId := by
    funext i
    by_cases h : (i.id == targetId) = true
    · simp [Function.comp, h, hf]
    · simp [Function.comp, h]
  rw [hpred]

/-- Looking up the targeted id in a mapItem image applies the transform. -/
theorem findItem_mapItem_self (itemId : String) (f : ProcessedImage → ProcessedImage)
    (hf : ∀ i, (f i).id = i.id) (items : List ProcessedImage) :
    findItem (mapItem itemId f items) itemId = (findItem items itemId).map f := by
  rw [findItem_mapItem itemId itemId f hf items]
  cases hfind : findItem items itemId with
  | none => rfl
  | some i =>
    unfold findItem at hfind
    have hid := List.find?_some hfind
    have hid2 : i.id = itemId := by simpa using hid
    simp [hid2]

/-- Looking up another id in a mapItem image is unchanged. -/
theorem findItem_mapItem_ne (targetId itemId : String) (hne : itemId ≠ targetId)
    (f : ProcessedImage → ProcessedImage) (hf : ∀ i, (f i).id = i.id)
    (items : List ProcessedImage) :
    findItem (mapItem targetId f items) itemId = findItem items itemId := by
  rw [findItem_mapItem targetId itemId f hf items]
  cases hfind : findItem items itemId with
  | none => rfl
  | some i =>
    unfold findItem at hfind
    have hid := List.find?_some hfind
    have hid2 : i.id = itemId := by simpa using hid
    simp [hid2, hne]

/-- The status query after a removal: gone for the removed id, unchanged
for every other id. -/
theorem findItem_removeItem (removedId itemId : String) (items : List ProcessedImage) :
    findItem (removeItem removedId items) itemId =
      if itemId = removedId then none else findItem items itemId := by
  unfold findItem removeItem
  by_cases h : itemId = removedId
  · subst h
    rw [if_pos rfl]
    rw [List.find?_eq_none]
    intro x hx
    rcases List.mem_filter.1 hx with ⟨_, hkeep⟩
    intro hbeq
    rw [beq_iff_eq] at hbeq
    simp [hbeq] at hkeep
  · rw [if_neg h]
    rw [List.find?_filter]
    congr 1
    funext x
    by_cases hx : (x.id == itemId) = true
    · rw [beq_iff_eq] at hx
      subst hx
      simp [h]
    · simp [hx]

/-! ## Claims C1 and C6 -/

/-- Membership in a fold of appended lists comes from one of the pieces. -/
theorem mem_foldr_append {α β : Type} (f : α → List β) (l : List α) (g : β)
    (hg : g ∈ l.foldr (fun x acc => f x ++ acc) []) : ∃ x ∈ l, g ∈ f x := by
  induction l with
  | nil => simp at hg
  | cons a rest ih =>
    simp only [List.foldr_cons, List.mem_append] at hg
    rcases hg with hg | hg
    · exact ⟨a, List.mem_cons_self a rest, hg⟩
    · rcases ih hg with ⟨x, hx, hgx⟩
      exact ⟨x, List.mem_cons_of_mem a hx, hgx⟩

/-- Every file kept by the recursive folder scan has an image MIME type. -/
theorem mem_traverseFileTree (e : FsEntry) :
    ∀ f ∈ traverseFileTree e, startsWith f.mimeType "image/" = true := by
  induction e using traverseFileTree.induct with
  | case1 f h =>
    intro g hg
    simp [traverseFileTree, h] at hg
    subst hg; exact h
  | case2 f h =>
    intro g hg
    simp [traverseFileTree, h] at hg
  | case3 name entries ih =>
    intro g hg
    simp only [traverseFileTree] at hg
    rcases mem_foldr_append _ _ _ hg with ⟨x, hx, hgx⟩
    exact ih x g hgx

/-- C1 (claimed): splitting yields widths floor(W/2) and W - floor(W/2)
(resp. heights floor(H/2) and H - floor(H/2)), other dimension kept. -/
def splitDimsClaimed (img : Image) (d : SplitDirection) : Prop :=
  match d with
  | .horizontal =>
    (splitImage img d).1.width = img.width / 2 ∧
    (splitImage img d).1.height = img.height ∧
    (splitImage img d).2.width = img.width - img.width / 2 ∧
    (splitImage img d).2.height = img.height
  | .vertical =>
    (splitImage img d).1.height = img.height / 2 ∧
    (splitImage img d).1.width = img.width ∧
    (splitImage img d).2.height = img.height - img.height / 2 ∧
    (splitImage img d).2.width = img.width

/-- C1 counterexample: on a 3 by 2 image split horizontally, the second
output has width 1 = floor(3/2), not 3 - floor(3/2) = 2, so the claimed
dimension law fails. -/
theorem splitImage_dims_claim_false :
    ¬ splitDimsClaimed demoImage SplitDirection.horizontal := by
  intro h
  have h2 := h.2.2.1
  simp [splitImage, crop, demoImage, splitDimsClaimed] at h2

/-- C1 (amended): both outputs of a horizontal split have width
floor(W/2) and height H; both outputs of a vertical split have height
floor(H/2) and width W.  For even W (resp. H) this agrees with the
claimed W - floor(W/2); for odd W the last pixel column is dropped. -/
theorem splitImage_dims (img : Image) (d : SplitDirection) :
    match d with
    | .horizontal =>
      (splitImage img d).1.width = img.width / 2 ∧
      (splitImage img d).1.height = img.height ∧
      (splitImage img d).2.width = img.width / 2 ∧
      (splitImage img d).2.height = img.height
    | .vertical =>
      (splitImage img d).1.height = img.height / 2 ∧
      (splitImage img d).1.width = img.width ∧
      (splitImage img d).2.height = img.height / 2 ∧
      (splitImage img d).2.width = img.width := by
  cases d <;> simp [splitImage, crop]

/-- C6: removing a missing identifier is a no-op, removal is idempotent,
and exactly the items carrying the given identifier are removed. -/
theorem removeItem_spec (itemId : String) (items : List ProcessedImage) :
    ((∀ i ∈ items, i.id ≠ itemId) → removeItem itemId items = items) ∧
    removeItem itemId (removeItem itemId items) = removeItem itemId items ∧
    (∀ j : ProcessedImage, j ∈ removeItem itemId items ↔ j ∈ items ∧ j.id ≠ itemId) := by
  refine ⟨?_, ?_, ?_⟩
  · intro h
    apply List.filter_eq_self.2
    intro i hi
    simpa using h i hi
  · simp [removeItem, List.filter_filter]
  · intro j
    simp [removeItem, List.mem_filter]

/-- Closed instance discharging the hypothesis of the no-op part of the
C6 theorem on a concrete one-element list and absent identifier. -/
theorem removeItem_spec_witness :
    removeItem "b"
      [{ id := "a", originalUrl := "u", file := { name := "f", mimeType := "image/png" },
         splitPart1 := { url := none, expandedUrl := none, status := .idle },
         splitPart2 := { url := none, expandedUrl := none, status := .idle } }] =
      [{ id := "a", originalUrl := "u", file := { name := "f", mimeType := "image/png" },
         splitPart1 := { url := none, expandedUrl := none, status := .idle },
         splitPart2 := { url := none, expandedUrl := none, status := .idle } }] :=
  (removeItem_spec "b" _).1 (by decide)

/-- C5: the expander client fails exactly when no credential is
configured, when the network call errors, or when the response contains
no image payload; otherwise it returns the first image payload of the
response, wrapped as a png data url. -/
theorem expandImageWithGemini_spec (base64Image : String) (settings : GeminiSettings)
    (call : GenRequest → Except String GenResponse) :
    (settings.apiKey = "" →
      expandImageWithGemini base64Image settings call = .error apiKeyMissingMsg) ∧
    (∀ e, settings.apiKey ≠ "" →
      call (mkRequest base64Image settings) = .error e →
      expandImageWithGemini base64Image settings call = .error e) ∧
    (∀ r, settings.apiKey ≠ "" →
      call (mkRequest base64Image settings) = .ok r →
      firstImagePayload r = none →
      expandImageWithGemini base64Image settings call = .error noImageMsg) ∧
    (∀ r payload, settings.apiKey ≠ "" →
      call (mkRequest base64Image settings) = .ok r →
      firstImagePayload r = some payload →
      expandImageWithGemini base64Image settings call =
        .ok ("data:image/png;base64," ++ payload)) := by
  refine ⟨?_, ?_, ?_, ?_⟩
  · intro h
    simp [expandImageWithGemini, h]
  · intro e hk hc
    simp [expandImageWithGemini, hk, hc]
  · intro r hk hc hp
    unfold firstImagePayload at hp
    cases hrp : responseParts r with
    | none => simp [expandImageWithGemini, hk, hc, hrp]
    | some parts =>
      rw [hrp] at hp
      have hp2 : findInlineData parts = none := hp
      simp [expandImageWithGemini, hk, hc, hrp, hp2]
  · intro r payload hk hc hp
    unfold firstImagePayload at hp
    cases hrp : responseParts r with
    | none => rw [hrp] at hp; cases hp
    | some parts =>
      rw [hrp] at hp
      have hp2 : findInlineData parts = some payload := hp
      simp [expandImageWithGemini, hk, hc, hrp, hp2]

/-- Closed instance of the C5 theorem: a successful concrete call
returns the first image payload of the response. -/
theorem expandImageWithGemini_spec_witness :
    expandImageWithGemini "data:image/png;base64,AAA" demoSettings
      (fun _ => .ok demoResponse) = .ok ("data:image/png;base64," ++ "XYZ") :=
  (expandImageWithGemini_spec "data:image/png;base64,AAA" demoSettings
      (fun _ => .ok demoResponse)).2.2.2 demoResponse "XYZ" (by decide) rfl (by decide)

/-- C9: on both ingestion paths the upload handler keeps exactly the
files whose MIME type starts with image/, and every work item it adds is
pending (both halves Idle with no stored images) and comes from such a
file; non-image files produce no item. -/
theorem upload_filters_to_images (mkId readUrl : FileMeta → String) :
    (∀ e : FsEntry, ∀ f ∈ traverseFileTree e, startsWith f.mimeType "image/" = true) ∧
    (∀ (files : List FileMeta) (f : FileMeta),
      f ∈ handleFileSelect files ↔ f ∈ files ∧ startsWith f.mimeType "image/" = true) ∧
    (∀ (files : List FileMeta) (prev : List ProcessedImage) (it : ProcessedImage),
      it ∈ handleFilesAdded mkId readUrl (handleFileSelect files) prev →
      it ∈ prev ∨
        (it.file ∈ files ∧ startsWith it.file.mimeType "image/" = true ∧
          it.splitPart1 = initPart ∧ it.splitPart2 = initPart)) ∧
    (∀ (e : FsEntry) (prev : List ProcessedImage) (it : ProcessedImage),
      it ∈ handleFilesAdded mkId readUrl (traverseFileTree e) prev →
      it ∈ prev ∨
        (startsWith it.file.mimeType "image/" = true ∧
          it.splitPart1 = initPart ∧ it.splitPart2 = initPart)) := by
  refine ⟨mem_traverseFileTree, ?_, ?_, ?_⟩
  · intro files f
    simp [handleFileSelect, List.mem_filter]
  · intro files prev it hit
    simp only [handleFilesAdded, List.mem_append, List.mem_map] at hit
    rcases hit with ⟨f, hf, rfl⟩ | hprev
    · rcases (by simpa [handleFileSelect, List.mem_filter] using hf :
        f ∈ files ∧ startsWith f.mimeType "image/" = true) with ⟨hmem, himg⟩
      exact Or.inr ⟨hmem, himg, rfl, rfl⟩
    · exact Or.inl hprev
  · intro e prev it hit
    simp only [handleFilesAdded, List.mem_append, List.mem_map] at hit
    rcases hit with ⟨f, hf, rfl⟩ | hprev
    · exact Or.inr ⟨mem_traverseFileTree e f hf, rfl, rfl⟩
    · exact Or.inl hprev

/-- Closed instance of the C9 theorem: a two-file selection with one
image and one text file yields exactly the image-backed pending item. -/
theorem upload_filters_to_images_witness :
    ({ name := "a.png", mimeType := "image/png" } : FileMeta) ∈
        handleFileSelect
          [{ name := "a.png", mimeType := "image/png" },
           { name := "b.txt", mimeType := "text/plain" }] ∧
      ¬ (({ name := "b.txt", mimeType := "text/plain" } : FileMeta) ∈
        handleFileSelect
          [{ name := "a.png", mimeType := "image/png" },
           { name := "b.txt", mimeType := "text/plain" }]) :=
  ⟨((upload_filters_to_images (fun _ => "id") (fun _ => "url")).2.1 _ _).2
      ⟨by decide, by decide⟩,
    fun h => by
      have := (((upload_filters_to_images (fun _ => "id") (fun _ => "url")).2.1 _ _).1 h).2
      exact absurd this (by decide)⟩

/-- Each mapItem update through setPart is frame preserving. -/
theorem mapItem_framePreserving (itemId : String) (p : PartNumber)
    (g : SplitPart → SplitPart) :
    FramePreserving (mapItem itemId fun i => setPart i p g) itemId p := by
  intro items n i hin
  refine ⟨if i.id == itemId then setPart i p g else i, ?_, ?_, ?_, ?_, ?_, ?_⟩
  · unfold mapItem
    rw [List.getElem?_map, hin]
    rfl
  · by_cases h : (i.id == itemId) = true <;> simp [h, setPart_id]
  · by_cases h : (i.id == itemId) = true <;> simp [h, setPart_originalUrl]
  · by_cases h : (i.id == itemId) = true <;> simp [h, setPart_file]
  · by_cases h : (i.id == itemId) = true <;> simp [h, setPart_other]
  · intro hne
    have h : (i.id == itemId) = false := by simpa using hne
    simp [h]

/-- C4: the three status updates of processImagePart (Expanding, Done,
Error) each modify only the targeted half of the targeted item: the item
keeps its position, id, source url, file and sibling half, and items
with another id are untouched, so a failure of one half never changes
its sibling and the two halves proceed independently. -/
theorem processImagePart_frame (itemId : String) (p : PartNumber) (expanded : String) :
    FramePreserving (markExpanding itemId p) itemId p ∧
    FramePreserving (markDone itemId p expanded) itemId p ∧
    FramePreserving (markError itemId p) itemId p :=
  ⟨mapItem_framePreserving itemId p _, mapItem_framePreserving itemId p _,
    mapItem_framePreserving itemId p _⟩

/-- Closed instance of the C4 theorem: the Error update of the first
half of a concrete item keeps the second half intact. -/
theorem processImagePart_frame_witness :
    ∃ j, (markError "a" PartNumber.p1 [demoItem])[0]? = some j ∧
      j.id = demoItem.id ∧ j.originalUrl = demoItem.originalUrl ∧
      j.file = demoItem.file ∧
      getPart j PartNumber.p1.other = getPart demoItem PartNumber.p1.other ∧
      (demoItem.id ≠ "a" → j = demoItem) :=
  (processImagePart_frame "a" PartNumber.p1 "e").2.2 [demoItem] 0 demoItem rfl

/-- C3: with no API credential configured, startProcessing returns
immediately: the item list is unchanged and no external call at all (in
particular no expansion request) is dispatched. -/
theorem startProcessing_no_key (settings : GeminiSettings) (dir : SplitDirection)
    (split : SplitOracle) (items : List ProcessedImage)
    (hkey : settings.apiKey = "") :
    startProcessing settings dir split items = (items, []) := by
  simp [startProcessing, hkey]

/-- Closed instance of the C3 theorem on a concrete item list. -/
theorem startProcessing_no_key_witness :
    startProcessing { apiKey := "", baseUrl := "", modelName := "" }
      SplitDirection.horizontal (fun _ _ => none) [demoItem] = ([demoItem], []) :=
  startProcessing_no_key _ _ _ _ rfl

/-- C7: a successful retry dispatches exactly one external call, an
expansion request for the targeted half carrying the stored crop (no
split call), and the only state change is the Expanding mark on that
half, which leaves the sibling half and all other items untouched. -/
theorem retryPart_spec (settings : GeminiSettings) (items : List ProcessedImage)
    (itemId : String) (p : PartNumber) (item : ProcessedImage) (u : String)
    (hkey : settings.apiKey ≠ "") (hfind : findItem items itemId = some item)
    (hurl : (getPart item p).url = some u) (hne : u ≠ "") :
    retryPart settings items itemId p =
      (markExpanding itemId p items, [ExtCall.expandCall itemId p u]) ∧
    FramePreserving (markExpanding itemId p) itemId p := by
  constructor
  · simp [retryPart, hkey, hfind, hurl, hne]
  · exact mapItem_framePreserving itemId p _

/-- Closed instance of the C7 theorem: retrying the errored first half
of a concrete item dispatches exactly its stored crop. -/
theorem retryPart_spec_witness :
    retryPart demoSettings [demoItem] "a" PartNumber.p1 =
      (markExpanding "a" PartNumber.p1 [demoItem],
        [ExtCall.expandCall "a" PartNumber.p1 "u1"]) :=
  (retryPart_spec demoSettings [demoItem] "a" PartNumber.p1 demoItem "u1"
    (by decide) (by decide) rfl (by decide)).1

/-- C10: retry is a complete no-op when the identifier is absent or the
targeted half has no stored crop, and with a configured key it
re-dispatches any half carrying a stored crop, whatever its status
(Done included), to Expanding. -/
theorem retryPart_cases (settings : GeminiSettings) (items : List ProcessedImage)
    (itemId : String) (p : PartNumber) :
    (findItem items itemId = none → retryPart settings items itemId p = (items, [])) ∧
    (∀ item, findItem items itemId = some item → (getPart item p).url = none →
      retryPart settings items itemId p = (items, [])) ∧
    (∀ item u, settings.apiKey ≠ "" → findItem items itemId = some item →
      (getPart item p).url = some u → u ≠ "" →
      retryPart settings items itemId p =
        (markExpanding itemId p items, [ExtCall.expandCall itemId p u]) ∧
      statusOf (markExpanding itemId p items) itemId p = some ProcessStatus.expanding) := by
  refine ⟨?_, ?_, ?_⟩
  · intro h
    by_cases hk : settings.apiKey = "" <;> simp [retryPart, hk, h]
  · intro item hfind hurl
    by_cases hk : settings.apiKey = "" <;> simp [retryPart, hk, hfind, hurl]
  · intro item u hk hfind hurl hne
    refine ⟨by simp [retryPart, hk, hfind, hurl, hne], ?_⟩
    unfold statusOf markExpanding
    rw [findItem_mapItem_self itemId (setExpanding p) (fun i => setPart_id i p _) items]
    rw [hfind]
    simp [setExpanding, setPart_self]

/-- Closed instance of the C10 theorem: the Done second half of a
concrete item is re-dispatched to Expanding by retry. -/
theorem retryPart_cases_witness :
    retryPart demoSettings [demoItem] "a" PartNumber.p2 =
      (markExpanding "a" PartNumber.p2 [demoItem],
        [ExtCall.expandCall "a" PartNumber.p2 "u2"]) ∧
    statusOf (markExpanding "a" PartNumber.p2 [demoItem]) "a" PartNumber.p2 =
      some ProcessStatus.expanding :=
  (retryPart_cases demoSettings [demoItem] "a" PartNumber.p2).2.2 demoItem "u2"
    (by decide) (by decide) rfl (by decide)

/-- setPart leaves the other part selector untouched. -/
theorem setPart_ne (i : ProcessedImage) (pt p : PartNumber) (g : SplitPart → SplitPart)
    (h : p ≠ pt) : getPart (setPart i pt g) p = getPart i p := by
  cases pt <;> cases p <;> simp_all [setPart, getPart]

/-- The status query through the Splitting mark. -/
theorem statusOf_markSplitting (itemId : String) (items : List ProcessedImage)
    (idq : String) (p : PartNumber) :
    statusOf (markSplitting itemId items) idq p =
      if idq = itemId then (statusOf items idq p).map fun _ => ProcessStatus.splitting
      else statusOf items idq p := by
  unfold statusOf markSplitting
  by_cases h : idq = itemId
  · subst h
    rw [if_pos rfl, findItem_mapItem_self idq setSplitting (fun i => rfl) items]
    cases findItem items idq with
    | none => rfl
    | some i => cases p <;> rfl
  · rw [if_neg h, findItem_mapItem_ne itemId idq h setSplitting (fun i => rfl) items]

/-- The status query through the split-result store. -/
theorem statusOf_setSplitResult (itemId u1 u2 : String) (items : List ProcessedImage)
    (idq : String) (p : PartNumber) :
    statusOf (setSplitResult itemId u1 u2 items) idq p =
      if idq = itemId then (statusOf items idq p).map fun _ => ProcessStatus.idle
      else statusOf items idq p := by
  unfold statusOf setSplitResult
  by_cases h : idq = itemId
  · subst h
    rw [if_pos rfl, findItem_mapItem_self idq (storeCrops u1 u2) (fun i => rfl) items]
    cases findItem items idq with
    | none => rfl
    | some i => cases p <;> rfl
  · rw [if_neg h, findItem_mapItem_ne itemId idq h (storeCrops u1 u2) (fun i => rfl) items]

/-- The status query through the Expanding mark. -/
theorem statusOf_markExpanding (itemId : String) (pt : PartNumber)
    (items : List ProcessedImage) (idq : String) (p : PartNumber) :
    statusOf (markExpanding itemId pt items) idq p =
      if idq = itemId ∧ p = pt then (statusOf items idq p).map fun _ => ProcessStatus.expanding
      else statusOf items idq p := by
  unfold statusOf markExpanding
  by_cases h : idq = itemId
  · subst h
    rw [findItem_mapItem_self idq (setExpanding pt) (fun i => setPart_id i pt _) items]
    by_cases hp : p = pt
    · subst hp
      rw [if_pos ⟨rfl, rfl⟩]
      cases findItem items idq with
      | none => rfl
      | some i => simp [setExpanding, setPart_self]
    · rw [if_neg (fun hc => hp hc.2)]
      cases findItem items idq with
      | none => rfl
      | some i => simp [setExpanding, setPart_ne i pt p _ hp]
  · rw [if_neg (fun hc => h hc.1),
      findItem_mapItem_ne itemId idq h (setExpanding pt) (fun i => setPart_id i pt _) items]

/-- The status query through the Done mark. -/
theorem statusOf_markDone (itemId : String) (pt : PartNumber) (e : String)
    (items : List ProcessedImage) (idq : String) (p : PartNumber) :
    statusOf (markDone itemId pt e items) idq p =
      if idq = itemId ∧ p = pt then (statusOf items idq p).map fun _ => ProcessStatus.done
      else statusOf items idq p := by
  unfold statusOf markDone
  by_cases h : idq = itemId
  · subst h
    rw [findItem_mapItem_self idq (setDone pt e) (fun i => setPart_id i pt _) items]
    by_cases hp : p = pt
    · subst hp
      rw [if_pos ⟨rfl, rfl⟩]
      cases findItem items idq with
      | none => rfl
      | some i => simp [setDone, setPart_self]
    · rw [if_neg (fun hc => hp hc.2)]
      cases findItem items idq with
      | none => rfl
      | some i => simp [setDone, setPart_ne i pt p _ hp]
  · rw [if_neg (fun hc => h hc.1),
      findItem_mapItem_ne itemId idq h (setDone pt e) (fun i => setPart_id i pt _) items]

/-- The status query through the Error mark. -/
theorem statusOf_markError (itemId : String) (pt : PartNumber)
    (items : List ProcessedImage) (idq : String) (p : PartNumber) :
    statusOf (markError itemId pt items) idq p =
      if idq = itemId ∧ p = pt then (statusOf items idq p).map fun _ => ProcessStatus.error
      else statusOf items idq p := by
  unfold statusOf markError
  by_cases h : idq = itemId
  · subst h
    rw [findItem_mapItem_self idq (setError pt) (fun i => setPart_id i pt _) items]
    by_cases hp : p = pt
    · subst hp
      rw [if_pos ⟨rfl, rfl⟩]
      cases findItem items idq with
      | none => rfl
      | some i => simp [setError, setPart_self]
    · rw [if_neg (fun hc => hp hc.2)]
      cases findItem items idq with
      | none => rfl
      | some i => simp [setError, setPart_ne i pt p _ hp]
  · rw [if_neg (fun hc => h hc.1),
      findItem_mapItem_ne itemId idq h (setError pt) (fun i => setPart_id i pt _) items]

/-- The status query and the item lookup agree on presence. -/
theorem statusOf_isSome (items : List ProcessedImage) (itemId : String) (p : PartNumber) :
    (statusOf items itemId p).isSome = (findItem items itemId).isSome := by
  unfold statusOf
  cases findItem items itemId <;> rfl

/-- A batch that never targets an id leaves its status query unchanged. -/
theorem processBatch_status_frame (dir : SplitDirection) (split : SplitOracle)
    (itemId : String) (p : PartNumber) :
    ∀ (batch : List ProcessedImage), (∀ b ∈ batch, b.id ≠ itemId) →
      ∀ cur, statusOf (processBatch dir split batch cur).1 itemId p = statusOf cur itemId p := by
  intro batch
  induction batch with
  | nil =>
    intro _ cur
    rfl
  | cons b rest ih =>
    intro hnot cur
    have hb : ¬ itemId = b.id := fun h => hnot b (List.mem_cons_self b rest) h.symm
    have hb2 : ¬ (itemId = b.id ∧ p = PartNumber.p1) := fun hc => hb hc.1
    have hb3 : ¬ (itemId = b.id ∧ p = PartNumber.p2) := fun hc => hb hc.1
    have hrest : ∀ x ∈ rest, x.id ≠ itemId := fun x hx => hnot x (List.mem_cons_of_mem b hx)
    unfold processBatch
    cases hsp : split dir b.originalUrl with
    | none =>
      simp only [hsp]
      rw [ih hrest (markSplitting b.id cur)]
      rw [statusOf_markSplitting b.id cur itemId p, if_neg hb]
    | some pr =>
      obtain ⟨u1, u2⟩ := pr
      simp only [hsp]
      rw [ih hrest _]
      rw [statusOf_markExpanding b.id PartNumber.p2 _ itemId p, if_neg hb3]
      rw [statusOf_markExpanding b.id PartNumber.p1 _ itemId p, if_neg hb2]
      rw [statusOf_setSplitResult b.id u1 u2 _ itemId p, if_neg hb]
      rw [statusOf_markSplitting b.id cur itemId p, if_neg hb]

/-- Every external call of a batch run comes from a batch member: its
split call, or, when its split succeeded, one of its two expansion
calls carrying the corresponding crop. -/
theorem processBatch_calls (dir : SplitDirection) (split : SplitOracle) :
    ∀ (batch cur : List ProcessedImage) (c : ExtCall),
      c ∈ (processBatch dir split batch cur).2 →
      ∃ b ∈ batch, c = ExtCall.splitCall b.id b.originalUrl ∨
        ∃ u1 u2, split dir b.originalUrl = some (u1, u2) ∧
          (c = ExtCall.expandCall b.id PartNumber.p1 u1 ∨
            c = ExtCall.expandCall b.id PartNumber.p2 u2) := by
  intro batch
  induction batch with
  | nil =>
    intro cur c hc
    simp [processBatch] at hc
  | cons b rest ih =>
    intro cur c hc
    unfold processBatch at hc
    cases hsp : split dir b.originalUrl with
    | none =>
      simp only [hsp, List.mem_cons] at hc
      rcases hc with rfl | hc
      · exact ⟨b, List.mem_cons_self b rest, Or.inl rfl⟩
      · rcases ih _ c hc with ⟨x, hx, hcase⟩
        exact ⟨x, List.mem_cons_of_mem b hx, hcase⟩
    | some pr =>
      obtain ⟨u1, u2⟩ := pr
      simp only [hsp, List.mem_cons] at hc
      rcases hc with rfl | rfl | rfl | hc
      · exact ⟨b, List.mem_cons_self b rest, Or.inl rfl⟩
      · exact ⟨b, List.mem_cons_self b rest, Or.inr ⟨u1, u2, hsp, Or.inl rfl⟩⟩
      · exact ⟨b, List.mem_cons_self b rest, Or.inr ⟨u1, u2, hsp, Or.inr rfl⟩⟩
      · rcases ih _ c hc with ⟨x, hx, hcase⟩
        exact ⟨x, List.mem_cons_of_mem b hx, hcase⟩

/-- Presence of an id is stable under mapItem. -/
theorem findItem_isSome_mapItem (targetId itemId : String)
    (f : ProcessedImage → ProcessedImage) (hf : ∀ i, (f i).id = i.id)
    (items : List ProcessedImage) :
    (findItem (mapItem targetId f items) itemId).isSome = (findItem items itemId).isSome := by
  rw [findItem_mapItem targetId itemId f hf items]
  cases findItem items itemId <;> rfl

/-- An item of the batch whose split fails ends the run with both halves
still marked Splitting. -/
theorem processBatch_failed_item (dir : SplitDirection) (split : SplitOracle)
    (item : ProcessedImage) (hfail : split dir item.originalUrl = none) :
    ∀ (batch : List ProcessedImage), item ∈ batch → (batch.map fun i => i.id).Nodup →
      ∀ cur, (findItem cur item.id).isSome = true →
      ∀ p, statusOf (processBatch dir split batch cur).1 item.id p =
        some ProcessStatus.splitting := by
  intro batch
  induction batch with
  | nil =>
    intro h
    cases h
  | cons b rest ih =>
    intro hmem hnodup cur hpres p
    rw [List.map_cons, List.nodup_cons] at hnodup
    rcases List.mem_cons.1 hmem with rfl | hmem2
    · unfold processBatch
      simp only [hfail]
      have hnot : ∀ x ∈ rest, x.id ≠ item.id := by
        intro x hx heq
        exact hnodup.1 (heq ▸ List.mem_map_of_mem (fun i => i.id) hx)
      rw [processBatch_status_frame dir split item.id p rest hnot (markSplitting item.id cur)]
      rw [statusOf_markSplitting item.id cur item.id p, if_pos rfl]
      have hps : (statusOf cur item.id p).isSome = true := by
        rw [statusOf_isSome]
        exact hpres
      cases hs : statusOf cur item.id p with
      | none => rw [hs] at hps; cases hps
      | some s => rfl
    · have hbne : b.id ≠ item.id := by
        intro heq
        exact hnodup.1 (heq ▸ List.mem_map_of_mem (fun i => i.id) hmem2)
      unfold processBatch
      cases hsp : split dir b.originalUrl with
      | none =>
        simp only [hsp]
        apply ih hmem2 hnodup.2 (markSplitting b.id cur) _ p
        unfold markSplitting
        rw [findItem_isSome_mapItem b.id item.id setSplitting (fun i => rfl) cur]
        exact hpres
      | some pr =>
        obtain ⟨u1, u2⟩ := pr
        simp only [hsp]
        apply ih hmem2 hnodup.2 _ _ p
        unfold markExpanding setSplitResult markSplitting
        rw [findItem_isSome_mapItem b.id item.id (setExpanding PartNumber.p2)
          (fun i => setPart_id i PartNumber.p2 _) _]
        rw [findItem_isSome_mapItem b.id item.id (setExpanding PartNumber.p1)
          (fun i => setPart_id i PartNumber.p1 _) _]
        rw [findItem_isSome_mapItem b.id item.id (storeCrops u1 u2) (fun i => rfl) _]
        rw [findItem_isSome_mapItem b.id item.id setSplitting (fun i => rfl) cur]
        exact hpres

/-- C8: when the crop of an item fails locally (the split oracle errors
on its source), startProcessing dispatches no expansion call for either
half of that item, and neither half is put into the Error status: both
halves end the run still marked Splitting. -/
theorem startProcessing_local_failure (settings : GeminiSettings) (dir : SplitDirection)
    (split : SplitOracle) (items : List ProcessedImage) (item : ProcessedImage)
    (hkey : settings.apiKey ≠ "") (hmem : item ∈ items) (hidle : bothIdle item = true)
    (hnodup : (items.map fun i => i.id).Nodup)
    (hfail : split dir item.originalUrl = none) :
    (∀ p payload,
      ExtCall.expandCall item.id p payload ∉ (startProcessing settings dir split items).2) ∧
    (∀ p, statusOf (startProcessing settings dir split items).1 item.id p =
      some ProcessStatus.splitting) ∧
    (∀ p, statusOf (startProcessing settings dir split items).1 item.id p ≠
      some ProcessStatus.error) := by
  have hmemb : item ∈ items.filter bothIdle := List.mem_filter.2 ⟨hmem, hidle⟩
  have hsub : ((items.filter bothIdle).map fun i => i.id).Nodup :=
    hnodup.sublist (List.Sublist.map _ (List.filter_sublist items))
  have hpres : (findItem items item.id).isSome = true := by
    unfold findItem
    rw [List.find?_isSome]
    exact ⟨item, hmem, by simp⟩
  have hstat : ∀ p, statusOf (startProcessing settings dir split items).1 item.id p =
      some ProcessStatus.splitting := by
    intro p
    unfold startProcessing
    rw [if_neg hkey]
    exact processBatch_failed_item dir split item hfail _ hmemb hsub items hpres p
  refine ⟨?_, hstat, ?_⟩
  · intro p payload hin
    unfold startProcessing at hin
    rw [if_neg hkey] at hin
    rcases processBatch_calls dir split _ items _ hin with ⟨b, hb, hcase⟩
    have hbitems : b ∈ items := List.mem_of_mem_filter hb
    rcases hcase with heq | ⟨u1, u2, hsome, heq⟩
    · cases heq
    · have hbid : b.id = item.id := by
        rcases heq with heq | heq <;> · injection heq with h1 _ _; exact h1.symm
      have hbeq : b = item := List.inj_on_of_nodup_map hnodup hbitems hmem hbid
      rw [hbeq, hfail] at hsome
      cases hsome
  · intro p h
    rw [hstat p] at h
    cases h

/-- Closed instance of the C8 theorem: a one-item batch whose split
oracle always fails dispatches nothing for the item and leaves both
halves in Splitting, not Error. -/
theorem startProcessing_local_failure_witness :
    (∀ p payload, ExtCall.expandCall demoIdleItem.id p payload ∉
      (startProcessing demoSettings SplitDirection.horizontal (fun _ _ => none)
        [demoIdleItem]).2) ∧
    (∀ p, statusOf (startProcessing demoSettings SplitDirection.horizontal (fun _ _ => none)
      [demoIdleItem]).1 demoIdleItem.id p = some ProcessStatus.splitting) ∧
    (∀ p, statusOf (startProcessing demoSettings SplitDirection.horizontal (fun _ _ => none)
      [demoIdleItem]).1 demoIdleItem.id p ≠ some ProcessStatus.error) :=
  startProcessing_local_failure demoSettings SplitDirection.horizontal (fun _ _ => none)
    [demoIdleItem] demoIdleItem (by decide) (by decide) (by decide) (by decide) rfl

/-! ## Facts about the item transforms -/

/-- The Splitting transform keeps the id. -/
theorem setSplitting_id (i : ProcessedImage) : (setSplitting i).id = i.id := rfl

/-- The crop-store transform keeps the id. -/
theorem storeCrops_id (u1 u2 : String) (i : ProcessedImage) :
    (storeCrops u1 u2 i).id = i.id := rfl

/-- The Expanding transform keeps the id. -/
theorem setExpanding_id (p : PartNumber) (i : ProcessedImage) :
    (setExpanding p i).id = i.id := setPart_id i p _

/-- The Done transform keeps the id. -/
theorem setDone_id (p : PartNumber) (e : String) (i : ProcessedImage) :
    (setDone p e i).id = i.id := setPart_id i p _

/-- The Error transform keeps the id. -/
theorem setError_id (p : PartNumber) (i : ProcessedImage) :
    (setError p i).id = i.id := setPart_id i p _

/-- The Splitting transform puts both halves into Splitting. -/
theorem setSplitting_status (i : ProcessedImage) (p : PartNumber) :
    (getPart (setSplitting i) p).status = ProcessStatus.splitting := by cases p <;> rfl

/-- The Splitting transform keeps both crop urls. -/
theorem setSplitting_url (i : ProcessedImage) (p : PartNumber) :
    (getPart (setSplitting i) p).url = (getPart i p).url := by cases p <;> rfl

/-- The crop store puts both halves back into Idle. -/
theorem storeCrops_status (u1 u2 : String) (i : ProcessedImage) (p : PartNumber) :
    (getPart (storeCrops u1 u2 i) p).status = ProcessStatus.idle := by cases p <;> rfl

/-- The Expanding transform sets its own half to Expanding. -/
theorem setExpanding_status_self (q : PartNumber) (i : ProcessedImage) :
    (getPart (setExpanding q i) q).status = ProcessStatus.expanding := by cases q <;> rfl

/-- The Expanding transform keeps the other half. -/
theorem setExpanding_ne (q p : PartNumber) (i : ProcessedImage) (h : p ≠ q) :
    getPart (setExpanding q i) p = getPart i p := setPart_ne i q p _ h

/-- The Expanding transform keeps both crop urls. -/
theorem setExpanding_url (q : PartNumber) (i : ProcessedImage) (p : PartNumber) :
    (getPart (setExpanding q i) p).url = (getPart i p).url := by cases q <;> cases p <;> rfl

/-- The Done transform sets its own half to Done. -/
theorem setDone_status_self (q : PartNumber) (e : String) (i : ProcessedImage) :
    (getPart (setDone q e i) q).status = ProcessStatus.done := by cases q <;> rfl

/-- The Done transform keeps the other half. -/
theorem setDone_ne (q : PartNumber) (e : String) (p : PartNumber) (i : ProcessedImage)
    (h : p ≠ q) : getPart (setDone q e i) p = getPart i p := setPart_ne i q p _ h

/-- The Done transform keeps both crop urls. -/
theorem setDone_url (q : PartNumber) (e : String) (i : ProcessedImage) (p : PartNumber) :
    (getPart (setDone q e i) p).url = (getPart i p).url := by cases q <;> cases p <;> rfl

/-- The Error transform sets its own half to Error. -/
theorem setError_status_self (q : PartNumber) (i : ProcessedImage) :
    (getPart (setError q i) q).status = ProcessStatus.error := by cases q <;> rfl

/-- The Error transform keeps the other half. -/
theorem setError_ne (q p : PartNumber) (i : ProcessedImage) (h : p ≠ q) :
    getPart (setError q i) p = getPart i p := setPart_ne i q p _ h

/-- The Error transform keeps both crop urls. -/
theorem setError_url (q : PartNumber) (i : ProcessedImage) (p : PartNumber) :
    (getPart (setError q i) p).url = (getPart i p).url := by cases q <;> cases p <;> rfl

/-- A property holding for both named halves holds for any selector. -/
theorem getPart_status_of_both {i : ProcessedImage} {a : ProcessStatus}
    (h1 : i.splitPart1.status = a) (h2 : i.splitPart2.status = a) (p : PartNumber) :
    (getPart i p).status = a := by cases p <;> assumption

/-- Decomposing membership in a mapItem image. -/
theorem mem_mapItem (tid : String) (f : ProcessedImage → ProcessedImage)
    (items : List ProcessedImage) (i2 : ProcessedImage)
    (h : i2 ∈ mapItem tid f items) :
    ∃ i ∈ items, (i.id = tid ∧ i2 = f i) ∨ (i.id ≠ tid ∧ i2 = i) := by
  unfold mapItem at h
  rcases List.mem_map.1 h with ⟨i, hi, heq⟩
  by_cases hc : (i.id == tid) = true
  · exact ⟨i, hi, Or.inl ⟨by simpa using hc, by rw [← heq]; simp [hc]⟩⟩
  · exact ⟨i, hi, Or.inr ⟨by simpa using hc, by rw [← heq]; simp [hc]⟩⟩

/-- mapItem keeps the id sequence when the transform keeps ids. -/
theorem mapItem_map_id (tid : String) (f : ProcessedImage → ProcessedImage)
    (hf : ∀ i, (f i).id = i.id) (items : List ProcessedImage) :
    (mapItem tid f items).map (fun i => i.id) = items.map fun i => i.id := by
  unfold mapItem
  rw [List.map_map]
  apply List.map_congr_left
  intro i _
  by_cases hc : (i.id == tid) = true <;> simp [Function.comp, hc, hf]

/-- Two mapItem passes at the same id compose. -/
theorem mapItem_mapItem (tid : String) (f g : ProcessedImage → ProcessedImage)
    (hg : ∀ i, (g i).id = i.id) (items : List ProcessedImage) :
    mapItem tid f (mapItem tid g items) = mapItem tid (fun i => f (g i)) items := by
  unfold mapItem
  rw [List.map_map]
  apply List.map_congr_left
  intro i _
  by_cases hc : (i.id == tid) = true
  · simp [Function.comp, hc, hg]
  · simp [Function.comp, hc]

/-! ## Invariant preservation -/

/-- The invariant holds initially. -/
theorem inv_init (k : String) : Inv (initState k) := by
  constructor <;> simp [initState]

/-- Uploading fresh pending items preserves the invariant. -/
theorem inv_upload {s : AppState} {newItems : List ProcessedImage}
    (hs : Inv s)
    (hfresh : ∀ i ∈ newItems, i.id ∉ s.usedIds)
    (hnodup : (newItems.map fun i => i.id).Nodup)
    (hinit : ∀ i ∈ newItems, i.splitPart1 = initPart ∧ i.splitPart2 = initPart) :
    Inv { s with items := newItems ++ s.items,
                 usedIds := (newItems.map fun i => i.id) ++ s.usedIds } := by
  exact {
    itemsNodup := by
      rw [List.map_append, List.nodup_append]
      refine ⟨hnodup, hs.itemsNodup, ?_⟩
      intro a ha hb
      rcases List.mem_map.1 ha with ⟨i, hi, rfl⟩
      rcases List.mem_map.1 hb with ⟨j, hj, hij⟩
      exact hfresh i hi (hij ▸ hs.itemsUsed j hj)
    itemsUsed := by
      intro i hi
      rcases List.mem_append.1 hi with h | h
      · exact List.mem_append_left _ (List.mem_map_of_mem _ h)
      · exact List.mem_append_right _ (hs.itemsUsed i h)
    urlNone := by
      intro i hi p hp
      rcases List.mem_append.1 hi with h | h
      · rcases hinit i h with ⟨h1, h2⟩
        cases p <;> simp [getPart, h1, h2, initPart]
      · exact hs.urlNone i h p hp
    batchIdle := by
      intro b hb i hi hid
      rcases List.mem_append.1 hi with h | h
      · have hbu : i.id ∈ s.usedIds := by rw [hid]; exact hs.batchUsed b hb
        exact absurd hbu (hfresh i h)
      · exact hs.batchIdle b hb i h hid
    batchUsed := fun b hb => List.mem_append_right _ (hs.batchUsed b hb)
    batchNodup := hs.batchNodup
    batchNoExpand := hs.batchNoExpand
    splitStatus := by
      intro id0 src h i hi hid
      rcases List.mem_append.1 hi with hmem | hmem
      · have hbu : i.id ∈ s.usedIds := by rw [hid]; exact hs.splitUsed id0 src h
        exact absurd hbu (hfresh i hmem)
      · exact hs.splitStatus id0 src h i hmem hid
    splitUsed := fun id0 src h => List.mem_append_right _ (hs.splitUsed id0 src h)
    splitNotBatch := hs.splitNotBatch
    splitNoExpand := hs.splitNoExpand
    expandStatus := by
      intro id0 p h i hi hid
      rcases List.mem_append.1 hi with hmem | hmem
      · have hbu : i.id ∈ s.usedIds := by rw [hid]; exact hs.expandUsed id0 p h
        exact absurd hbu (hfresh i hmem)
      · exact hs.expandStatus id0 p h i hmem hid
    expandUsed := fun id0 p h => List.mem_append_right _ (hs.expandUsed id0 p h)
    expandNodup := hs.expandNodup }

/-- Saving settings only changes the key. -/
theorem inv_saveKey {s : AppState} (hs : Inv s) (k : String) :
    Inv { s with apiKey := k } :=
  { itemsNodup := hs.itemsNodup, itemsUsed := hs.itemsUsed, urlNone := hs.urlNone,
    batchIdle := hs.batchIdle, batchUsed := hs.batchUsed, batchNodup := hs.batchNodup,
    batchNoExpand := hs.batchNoExpand, splitStatus := hs.splitStatus,
    splitUsed := hs.splitUsed, splitNotBatch := hs.splitNotBatch,
    splitNoExpand := hs.splitNoExpand, expandStatus := hs.expandStatus,
    expandUsed := hs.expandUsed, expandNodup := hs.expandNodup }

/-- Snapshotting the both-Idle items into the batch preserves the
invariant. -/
theorem inv_startBatch {s : AppState} (hs : Inv s)
    (hsplit : s.pendingSplit = none) :
    Inv { s with batch := s.items.filter bothIdle } := by
  exact {
    itemsNodup := hs.itemsNodup
    itemsUsed := hs.itemsUsed
    urlNone := hs.urlNone
    batchIdle := by
      intro b hb i hi hid
      have hbitems : b ∈ s.items := List.mem_of_mem_filter hb
      have hbboth : bothIdle b = true := List.of_mem_filter hb
      have hib : i = b := List.inj_on_of_nodup_map hs.itemsNodup hi hbitems hid
      subst hib
      unfold bothIdle at hbboth
      simp only [Bool.and_eq_true, beq_iff_eq] at hbboth
      exact hbboth
    batchUsed := fun b hb => hs.itemsUsed b (List.mem_of_mem_filter hb)
    batchNodup := hs.itemsNodup.sublist (List.Sublist.map _ (List.filter_sublist s.items))
    batchNoExpand := by
      intro b hb p hpend
      have hbitems : b ∈ s.items := List.mem_of_mem_filter hb
      have hbboth : bothIdle b = true := List.of_mem_filter hb
      have hexp := hs.expandStatus b.id p hpend b hbitems rfl
      unfold bothIdle at hbboth
      simp only [Bool.and_eq_true, beq_iff_eq] at hbboth
      have hidle : (getPart b p).status = ProcessStatus.idle :=
        getPart_status_of_both hbboth.1 hbboth.2 p
      rw [hexp] at hidle
      cases hidle
    splitStatus := by intro id0 src h; rw [hsplit] at h; cases h
    splitUsed := by intro id0 src h; rw [hsplit] at h; cases h
    splitNotBatch := by intro id0 src h; rw [hsplit] at h; cases h
    splitNoExpand := by intro id0 src h; rw [hsplit] at h; cases h
    expandStatus := hs.expandStatus
    expandUsed := hs.expandUsed
    expandNodup := hs.expandNodup }

/-- Dropping a failed in-flight split preserves the invariant. -/
theorem inv_splitFail {s : AppState} (hs : Inv s) :
    Inv { s with pendingSplit := none } := by
  exact {
    itemsNodup := hs.itemsNodup, itemsUsed := hs.itemsUsed, urlNone := hs.urlNone,
    batchIdle := hs.batchIdle, batchUsed := hs.batchUsed, batchNodup := hs.batchNodup,
    batchNoExpand := hs.batchNoExpand
    splitStatus := by intro id0 src h; cases h
    splitUsed := by intro id0 src h; cases h
    splitNotBatch := by intro id0 src h; cases h
    splitNoExpand := by intro id0 src h; cases h
    expandStatus := hs.expandStatus, expandUsed := hs.expandUsed,
    expandNodup := hs.expandNodup }

/-- Removing an item preserves the invariant. -/
theorem inv_remove {s : AppState} (hs : Inv s) (itemId : String) :
    Inv { s with items := removeItem itemId s.items } := by
  have hsub : ∀ i, i ∈ removeItem itemId s.items → i ∈ s.items := by
    intro i hi
    exact List.mem_of_mem_filter hi
  exact {
    itemsNodup :=
      hs.itemsNodup.sublist (List.Sublist.map _ (List.filter_sublist s.items))
    itemsUsed := fun i hi => hs.itemsUsed i (hsub i hi)
    urlNone := fun i hi p hp => hs.urlNone i (hsub i hi) p hp
    batchIdle := fun b hb i hi hid => hs.batchIdle b hb i (hsub i hi) hid
    batchUsed := hs.batchUsed
    batchNodup := hs.batchNodup
    batchNoExpand := hs.batchNoExpand
    splitStatus := fun id0 src h i hi hid => hs.splitStatus id0 src h i (hsub i hi) hid
    splitUsed := hs.splitUsed
    splitNotBatch := hs.splitNotBatch
    splitNoExpand := hs.splitNoExpand
    expandStatus := fun id0 p h i hi hid => hs.expandStatus id0 p h i (hsub i hi) hid
    expandUsed := hs.expandUsed
    expandNodup := hs.expandNodup }

/-- Clearing the list preserves the invariant. -/
theorem inv_clear {s : AppState} (hs : Inv s) :
    Inv { s with items := ([] : List ProcessedImage) } := by
  exact {
    itemsNodup := List.nodup_nil
    itemsUsed := by intro i hi; cases hi
    urlNone := by intro i hi; cases hi
    batchIdle := by intro b hb i hi; cases hi
    batchUsed := hs.batchUsed
    batchNodup := hs.batchNodup
    batchNoExpand := hs.batchNoExpand
    splitStatus := by intro id0 src h i hi; cases hi
    splitUsed := hs.splitUsed
    splitNotBatch := hs.splitNotBatch
    splitNoExpand := hs.splitNoExpand
    expandStatus := by intro id0 p h i hi; cases hi
    expandUsed := hs.expandUsed
    expandNodup := hs.expandNodup }

/-- The found item is a member. -/
theorem findItem_mem {items : List ProcessedImage} {itemId : String}
    {item : ProcessedImage} (h : findItem items itemId = some item) : item ∈ items := by
  unfold findItem at h
  exact List.mem_of_find?_eq_some h

/-- The found item carries the id. -/
theorem findItem_id {items : List ProcessedImage} {itemId : String}
    {item : ProcessedImage} (h : findItem items itemId = some item) : item.id = itemId := by
  unfold findItem at h
  have := List.find?_some h
  simpa using this

/-- Popping the batch head into a marked split preserves the invariant. -/
theorem inv_batchStep {s : AppState} {item : ProcessedImage} {rest : List ProcessedImage}
    (hs : Inv s) (hbatch : s.batch = item :: rest) :
    Inv { s with items := markSplitting item.id s.items, batch := rest,
                 pendingSplit := some (item.id, item.originalUrl) } := by
  have hitemb : item ∈ s.batch := by rw [hbatch]; exact List.mem_cons_self item rest
  have hrestb : ∀ b ∈ rest, b ∈ s.batch := by
    intro b hb
    rw [hbatch]
    exact List.mem_cons_of_mem item hb
  have hrestne : ∀ b ∈ rest, b.id ≠ item.id := by
    intro b hb heq
    have hn := hs.batchNodup
    rw [hbatch, List.map_cons, List.nodup_cons] at hn
    exact hn.1 (heq ▸ List.mem_map_of_mem (fun i => i.id) hb)
  exact {
    itemsNodup := by
      unfold markSplitting
      rw [mapItem_map_id item.id setSplitting (fun i => rfl) s.items]
      exact hs.itemsNodup
    itemsUsed := by
      intro i2 hi2
      unfold markSplitting at hi2
      rcases mem_mapItem _ _ _ _ hi2 with ⟨i, hi, ⟨hidm, rfl⟩ | ⟨hidm, heq⟩⟩
      · rw [setSplitting_id]
        exact hs.itemsUsed i hi
      · subst heq
        exact hs.itemsUsed i2 hi
    urlNone := by
      intro i2 hi2 p hp
      unfold markSplitting at hi2
      rcases mem_mapItem _ _ _ _ hi2 with ⟨i, hi, ⟨hidm, rfl⟩ | ⟨hidm, heq⟩⟩
      · rw [setSplitting_url]
        rcases hs.batchIdle item hitemb i hi hidm with ⟨h1, h2⟩
        exact hs.urlNone i hi p (Or.inl (getPart_status_of_both h1 h2 p))
      · subst heq
        exact hs.urlNone i2 hi p hp
    batchIdle := by
      intro b hb i2 hi2 hid2
      unfold markSplitting at hi2
      rcases mem_mapItem _ _ _ _ hi2 with ⟨i, hi, ⟨hidm, rfl⟩ | ⟨hidm, heq⟩⟩
      · rw [setSplitting_id] at hid2
        have hbid : b.id = item.id := by rw [← hid2]; exact hidm
        exact absurd hbid (hrestne b hb)
      · subst heq
        exact hs.batchIdle b (hrestb b hb) i2 hi hid2
    batchUsed := fun b hb => hs.batchUsed b (hrestb b hb)
    batchNodup := by
      have hn := hs.batchNodup
      rw [hbatch, List.map_cons, List.nodup_cons] at hn
      exact hn.2
    batchNoExpand := fun b hb => hs.batchNoExpand b (hrestb b hb)
    splitStatus := by
      intro id0 src h i2 hi2 hid2
      simp only [Option.some.injEq, Prod.mk.injEq] at h
      unfold markSplitting at hi2
      rcases mem_mapItem _ _ _ _ hi2 with ⟨i, hi, ⟨hidm, rfl⟩ | ⟨hidm, heq⟩⟩
      · exact ⟨rfl, rfl⟩
      · subst heq
        rw [← h.1] at hid2
        exact absurd hid2 hidm
    splitUsed := by
      intro id0 src h
      simp only [Option.some.injEq, Prod.mk.injEq] at h
      rw [← h.1]
      exact hs.batchUsed item hitemb
    splitNotBatch := by
      intro id0 src h b hb
      simp only [Option.some.injEq, Prod.mk.injEq] at h
      rw [← h.1]
      exact hrestne b hb
    splitNoExpand := by
      intro id0 src h p
      simp only [Option.some.injEq, Prod.mk.injEq] at h
      rw [← h.1]
      exact hs.batchNoExpand item hitemb p
    expandStatus := by
      intro id0 p h i2 hi2 hid2
      unfold markSplitting at hi2
      rcases mem_mapItem _ _ _ _ hi2 with ⟨i, hi, ⟨hidm, rfl⟩ | ⟨hidm, heq⟩⟩
      · rw [setSplitting_id] at hid2
        have hid0 : (item.id, p) ∈ s.pendingExpands := by
          rw [← hidm, hid2]
          exact h
        exact absurd hid0 (hs.batchNoExpand item hitemb p)
      · subst heq
        exact hs.expandStatus id0 p h i2 hi hid2
    expandUsed := hs.expandUsed
    expandNodup := hs.expandNodup }

/-- Storing a successful split and dispatching both halves preserves the
invariant. -/
theorem inv_splitOk {s : AppState} {itemId src u1 u2 : String}
    (hs : Inv s) (hsplit : s.pendingSplit = some (itemId, src)) :
    Inv { s with
      items := markExpanding itemId PartNumber.p2 (markExpanding itemId PartNumber.p1
        (setSplitResult itemId u1 u2 s.items)),
      pendingSplit := none,
      pendingExpands :=
        (itemId, PartNumber.p1) :: (itemId, PartNumber.p2) :: s.pendingExpands } := by
  have hid : ∀ i : ProcessedImage,
      (setExpanding PartNumber.p2 (setExpanding PartNumber.p1 (storeCrops u1 u2 i))).id
        = i.id := by
    intro i
    rw [setExpanding_id, setExpanding_id, storeCrops_id]
  have hcomp : markExpanding itemId PartNumber.p2 (markExpanding itemId PartNumber.p1
      (setSplitResult itemId u1 u2 s.items)) =
      mapItem itemId (fun i => setExpanding PartNumber.p2 (setExpanding PartNumber.p1
        (storeCrops u1 u2 i))) s.items := by
    unfold markExpanding setSplitResult
    rw [mapItem_mapItem itemId (setExpanding PartNumber.p1) (storeCrops u1 u2)
      (fun i => rfl) s.items]
    rw [mapItem_mapItem itemId (setExpanding PartNumber.p2) _
      (fun i => by rw [setExpanding_id, storeCrops_id]) s.items]
  have hstat : ∀ (i : ProcessedImage) (p : PartNumber),
      (getPart (setExpanding PartNumber.p2 (setExpanding PartNumber.p1
        (storeCrops u1 u2 i))) p).status = ProcessStatus.expanding := by
    intro i p
    cases p <;> rfl
  have hnotpend : ∀ p, (itemId, p) ∉ s.pendingExpands :=
    fun p => hs.splitNoExpand itemId src hsplit p
  have hnb : ∀ b ∈ s.batch, b.id ≠ itemId := hs.splitNotBatch itemId src hsplit
  exact {
    itemsNodup := by
      rw [hcomp, mapItem_map_id itemId _ hid s.items]
      exact hs.itemsNodup
    itemsUsed := by
      intro i2 hi2
      rw [hcomp] at hi2
      rcases mem_mapItem _ _ _ _ hi2 with ⟨i, hi, ⟨hidm, rfl⟩ | ⟨hidm, heq⟩⟩
      · rw [hid]
        exact hs.itemsUsed i hi
      · subst heq
        exact hs.itemsUsed i2 hi
    urlNone := by
      intro i2 hi2 p hp
      rw [hcomp] at hi2
      rcases mem_mapItem _ _ _ _ hi2 with ⟨i, hi, ⟨hidm, rfl⟩ | ⟨hidm, heq⟩⟩
      · rw [hstat i p] at hp
        rcases hp with hp | hp <;> cases hp
      · subst heq
        exact hs.urlNone i2 hi p hp
    batchIdle := by
      intro b hb i2 hi2 hid2
      rw [hcomp] at hi2
      rcases mem_mapItem _ _ _ _ hi2 with ⟨i, hi, ⟨hidm, rfl⟩ | ⟨hidm, heq⟩⟩
      · rw [hid] at hid2
        have hbid : b.id = itemId := by rw [← hid2]; exact hidm
        exact absurd hbid (hnb b hb)
      · subst heq
        exact hs.batchIdle b hb i2 hi hid2
    batchUsed := hs.batchUsed
    batchNodup := hs.batchNodup
    batchNoExpand := by
      intro b hb p hpend
      rcases List.mem_cons.1 hpend with hpeq | hpend2
      · have hbid : b.id = itemId := congrArg Prod.fst hpeq
        exact absurd hbid (hnb b hb)
      rcases List.mem_cons.1 hpend2 with hpeq | hpend3
      · have hbid : b.id = itemId := congrArg Prod.fst hpeq
        exact absurd hbid (hnb b hb)
      · exact hs.batchNoExpand b hb p hpend3
    splitStatus := by intro id0 src0 h; cases h
    splitUsed := by intro id0 src0 h; cases h
    splitNotBatch := by intro id0 src0 h; cases h
    splitNoExpand := by intro id0 src0 h; cases h
    expandStatus := by
      intro id0 p h i2 hi2 hid2
      rw [hcomp] at hi2
      rcases List.mem_cons.1 h with hpeq | h2
      · injection hpeq with he1 he2
        subst he1
        subst he2
        rcases mem_mapItem _ _ _ _ hi2 with ⟨i, hi, ⟨hidm, rfl⟩ | ⟨hidm, heq⟩⟩
        · exact hstat i _
        · subst heq
          exact absurd hid2 hidm
      rcases List.mem_cons.1 h2 with hpeq | h3
      · injection hpeq with he1 he2
        subst he1
        subst he2
        rcases mem_mapItem _ _ _ _ hi2 with ⟨i, hi, ⟨hidm, rfl⟩ | ⟨hidm, heq⟩⟩
        · exact hstat i _
        · subst heq
          exact absurd hid2 hidm
      · rcases mem_mapItem _ _ _ _ hi2 with ⟨i, hi, ⟨hidm, rfl⟩ | ⟨hidm, heq⟩⟩
        · rw [hid] at hid2
          have hid0 : id0 = itemId := by rw [← hid2]; exact hidm
          rw [hid0] at h3
          exact absurd h3 (hnotpend p)
        · subst heq
          exact hs.expandStatus id0 p h3 i2 hi hid2
    expandUsed := by
      intro id0 p h
      rcases List.mem_cons.1 h with hpeq | h2
      · injection hpeq with he1 _
        subst he1
        exact hs.splitUsed id0 src hsplit
      rcases List.mem_cons.1 h2 with hpeq | h3
      · injection hpeq with he1 _
        subst he1
        exact hs.splitUsed id0 src hsplit
      · exact hs.expandUsed id0 p h3
    expandNodup := by
      rw [List.nodup_cons, List.nodup_cons]
      refine ⟨?_, ?_, hs.expandNodup⟩
      · intro hmem
        rcases List.mem_cons.1 hmem with hpeq | h2
        · injection hpeq with _ hpp
          cases hpp
        · exact hnotpend PartNumber.p1 h2
      · exact hnotpend PartNumber.p2 }

/-- A successful expansion resolution preserves the invariant. -/
theorem inv_expandOk {s : AppState} {itemId : String} {p : PartNumber} {expanded : String}
    (hs : Inv s) (hpend : (itemId, p) ∈ s.pendingExpands) :
    Inv { s with items := markDone itemId p expanded s.items,
                 pendingExpands := s.pendingExpands.erase (itemId, p) } := by
  have hND := hs.expandNodup
  have hbne : ∀ b ∈ s.batch, b.id ≠ itemId := by
    intro b hb hbeq
    exact hs.batchNoExpand b hb p (hbeq ▸ hpend)
  exact {
    itemsNodup := by
      unfold markDone
      rw [mapItem_map_id itemId (setDone p expanded) (fun i => setDone_id p expanded i) s.items]
      exact hs.itemsNodup
    itemsUsed := by
      intro i2 hi2
      unfold markDone at hi2
      rcases mem_mapItem _ _ _ _ hi2 with ⟨i, hi, ⟨hidm, rfl⟩ | ⟨hidm, heq⟩⟩
      · rw [setDone_id]
        exact hs.itemsUsed i hi
      · subst heq
        exact hs.itemsUsed i2 hi
    urlNone := by
      intro i2 hi2 q hq
      unfold markDone at hi2
      rcases mem_mapItem _ _ _ _ hi2 with ⟨i, hi, ⟨hidm, rfl⟩ | ⟨hidm, heq⟩⟩
      · by_cases hqp : q = p
        · subst hqp
          rw [setDone_status_self] at hq
          rcases hq with hq | hq <;> cases hq
        · rw [setDone_ne p expanded q i hqp] at hq
          rw [setDone_ne p expanded q i hqp]
          exact hs.urlNone i hi q hq
      · subst heq
        exact hs.urlNone i2 hi q hq
    batchIdle := by
      intro b hb i2 hi2 hid2
      unfold markDone at hi2
      rcases mem_mapItem _ _ _ _ hi2 with ⟨i, hi, ⟨hidm, rfl⟩ | ⟨hidm, heq⟩⟩
      · rw [setDone_id] at hid2
        have hbid : b.id = itemId := by rw [← hid2]; exact hidm
        exact absurd hbid (hbne b hb)
      · subst heq
        exact hs.batchIdle b hb i2 hi hid2
    batchUsed := hs.batchUsed
    batchNodup := hs.batchNodup
    batchNoExpand := fun b hb q hq => hs.batchNoExpand b hb q (List.mem_of_mem_erase hq)
    splitStatus := by
      intro id0 src h i2 hi2 hid2
      unfold markDone at hi2
      rcases mem_mapItem _ _ _ _ hi2 with ⟨i, hi, ⟨hidm, rfl⟩ | ⟨hidm, heq⟩⟩
      · rw [setDone_id] at hid2
        have hid0 : id0 = itemId := by rw [← hid2]; exact hidm
        have hmem0 : (id0, p) ∈ s.pendingExpands := by rw [hid0]; exact hpend
        exact absurd hmem0 (hs.splitNoExpand id0 src h p)
      · subst heq
        exact hs.splitStatus id0 src h i2 hi hid2
    splitUsed := hs.splitUsed
    splitNotBatch := hs.splitNotBatch
    splitNoExpand := fun id0 src h q hq =>
      hs.splitNoExpand id0 src h q (List.mem_of_mem_erase hq)
    expandStatus := by
      intro id0 q h i2 hi2 hid2
      have h2 := (hND.mem_erase_iff).1 h
      unfold markDone at hi2
      rcases mem_mapItem _ _ _ _ hi2 with ⟨i, hi, ⟨hidm, rfl⟩ | ⟨hidm, heq⟩⟩
      · rw [setDone_id] at hid2
        have hid0 : id0 = itemId := by rw [← hid2]; exact hidm
        subst hid0
        have hqp : q ≠ p := by
          intro hqq
          exact h2.1 (by rw [hqq])
        rw [setDone_ne p expanded q i hqp]
        exact hs.expandStatus id0 q h2.2 i hi hid2
      · subst heq
        exact hs.expandStatus id0 q h2.2 i2 hi hid2
    expandUsed := fun id0 q h => hs.expandUsed id0 q (List.mem_of_mem_erase h)
    expandNodup := hND.erase _ }

/-- A failed expansion resolution preserves the invariant. -/
theorem inv_expandFail {s : AppState} {itemId : String} {p : PartNumber}
    (hs : Inv s) (hpend : (itemId, p) ∈ s.pendingExpands) :
    Inv { s with items := markError itemId p s.items,
                 pendingExpands := s.pendingExpands.erase (itemId, p) } := by
  have hND := hs.expandNodup
  have hbne : ∀ b ∈ s.batch, b.id ≠ itemId := by
    intro b hb hbeq
    exact hs.batchNoExpand b hb p (hbeq ▸ hpend)
  exact {
    itemsNodup := by
      unfold markError
      rw [mapItem_map_id itemId (setError p) (fun i => setError_id p i) s.items]
      exact hs.itemsNodup
    itemsUsed := by
      intro i2 hi2
      unfold markError at hi2
      rcases mem_mapItem _ _ _ _ hi2 with ⟨i, hi, ⟨hidm, rfl⟩ | ⟨hidm, heq⟩⟩
      · rw [setError_id]
        exact hs.itemsUsed i hi
      · subst heq
        exact hs.itemsUsed i2 hi
    urlNone := by
      intro i2 hi2 q hq
      unfold markError at hi2
      rcases mem_mapItem _ _ _ _ hi2 with ⟨i, hi, ⟨hidm, rfl⟩ | ⟨hidm, heq⟩⟩
      · by_cases hqp : q = p
        · subst hqp
          rw [setError_status_self] at hq
          rcases hq with hq | hq <;> cases hq
        · rw [setError_ne p q i hqp] at hq
          rw [setError_ne p q i hqp]
          exact hs.urlNone i hi q hq
      · subst heq
        exact hs.urlNone i2 hi q hq
    batchIdle := by
      intro b hb i2 hi2 hid2
      unfold markError at hi2
      rcases mem_mapItem _ _ _ _ hi2 with ⟨i, hi, ⟨hidm, rfl⟩ | ⟨hidm, heq⟩⟩
      · rw [setError_id] at hid2
        have hbid : b.id = itemId := by rw [← hid2]; exact hidm
        exact absurd hbid (hbne b hb)
      · subst heq
        exact hs.batchIdle b hb i2 hi hid2
    batchUsed := hs.batchUsed
    batchNodup := hs.batchNodup
    batchNoExpand := fun b hb q hq => hs.batchNoExpand b hb q (List.mem_of_mem_erase hq)
    splitStatus := by
      intro id0 src h i2 hi2 hid2
      unfold markError at hi2
      rcases mem_mapItem _ _ _ _ hi2 with ⟨i, hi, ⟨hidm, rfl⟩ | ⟨hidm, heq⟩⟩
      · rw [setError_id] at hid2
        have hid0 : id0 = itemId := by rw [← hid2]; exact hidm
        have hmem0 : (id0, p) ∈ s.pendingExpands := by rw [hid0]; exact hpend
        exact absurd hmem0 (hs.splitNoExpand id0 src h p)
      · subst heq
        exact hs.splitStatus id0 src h i2 hi hid2
    splitUsed := hs.splitUsed
    splitNotBatch := hs.splitNotBatch
    splitNoExpand := fun id0 src h q hq =>
      hs.splitNoExpand id0 src h q (List.mem_of_mem_erase hq)
    expandStatus := by
      intro id0 q h i2 hi2 hid2
      have h2 := (hND.mem_erase_iff).1 h
      unfold markError at hi2
      rcases mem_mapItem _ _ _ _ hi2 with ⟨i, hi, ⟨hidm, rfl⟩ | ⟨hidm, heq⟩⟩
      · rw [setError_id] at hid2
        have hid0 : id0 = itemId := by rw [← hid2]; exact hidm
        subst hid0
        have hqp : q ≠ p := by
          intro hqq
          exact h2.1 (by rw [hqq])
        rw [setError_ne p q i hqp]
        exact hs.expandStatus id0 q h2.2 i hi hid2
      · subst heq
        exact hs.expandStatus id0 q h2.2 i2 hi hid2
    expandUsed := fun id0 q h => hs.expandUsed id0 q (List.mem_of_mem_erase h)
    expandNodup := hND.erase _ }

/-- A retry dispatch on an Error half with a stored crop preserves the
invariant. -/
theorem inv_retry {s : AppState} {itemId : String} {p : PartNumber}
    {item : ProcessedImage}
    (hs : Inv s)
    (hfind : findItem s.items itemId = some item)
    (hstatus : (getPart item p).status = ProcessStatus.error) :
    Inv { s with items := markExpanding itemId p s.items,
                 pendingExpands := (itemId, p) :: s.pendingExpands } := by
  have hmemitem : item ∈ s.items := findItem_mem hfind
  have hitemid : item.id = itemId := findItem_id hfind
  have hnotpend : (itemId, p) ∉ s.pendingExpands := by
    intro hmem
    have hexp := hs.expandStatus itemId p hmem item hmemitem hitemid
    rw [hstatus] at hexp
    cases hexp
  have hbne : ∀ b ∈ s.batch, b.id ≠ itemId := by
    intro b hb hbeq
    rcases hs.batchIdle b hb item hmemitem (by rw [hitemid, hbeq]) with ⟨h1, h2⟩
    have hidle := getPart_status_of_both h1 h2 p
    rw [hstatus] at hidle
    cases hidle
  exact {
    itemsNodup := by
      unfold markExpanding
      rw [mapItem_map_id itemId (setExpanding p) (fun i => setExpanding_id p i) s.items]
      exact hs.itemsNodup
    itemsUsed := by
      intro i2 hi2
      unfold markExpanding at hi2
      rcases mem_mapItem _ _ _ _ hi2 with ⟨i, hi, ⟨hidm, rfl⟩ | ⟨hidm, heq⟩⟩
      · rw [setExpanding_id]
        exact hs.itemsUsed i hi
      · subst heq
        exact hs.itemsUsed i2 hi
    urlNone := by
      intro i2 hi2 q hq
      unfold markExpanding at hi2
      rcases mem_mapItem _ _ _ _ hi2 with ⟨i, hi, ⟨hidm, rfl⟩ | ⟨hidm, heq⟩⟩
      · by_cases hqp : q = p
        · subst hqp
          rw [setExpanding_status_self] at hq
          rcases hq with hq | hq <;> cases hq
        · rw [setExpanding_ne p q i hqp] at hq
          rw [setExpanding_ne p q i hqp]
          exact hs.urlNone i hi q hq
      · subst heq
        exact hs.urlNone i2 hi q hq
    batchIdle := by
      intro b hb i2 hi2 hid2
      unfold markExpanding at hi2
      rcases mem_mapItem _ _ _ _ hi2 with ⟨i, hi, ⟨hidm, rfl⟩ | ⟨hidm, heq⟩⟩
      · rw [setExpanding_id] at hid2
        have hbid : b.id = itemId := by rw [← hid2]; exact hidm
        exact absurd hbid (hbne b hb)
      · subst heq
        exact hs.batchIdle b hb i2 hi hid2
    batchUsed := hs.batchUsed
    batchNodup := hs.batchNodup
    batchNoExpand := by
      intro b hb q hq
      rcases List.mem_cons.1 hq with hpeq | h2
      · have hbid : b.id = itemId := congrArg Prod.fst hpeq
        exact absurd hbid (hbne b hb)
      · exact hs.batchNoExpand b hb q h2
    splitStatus := by
      intro id0 src h i2 hi2 hid2
      unfold markExpanding at hi2
      rcases mem_mapItem _ _ _ _ hi2 with ⟨i, hi, ⟨hidm, rfl⟩ | ⟨hidm, heq⟩⟩
      · rw [setExpanding_id] at hid2
        have hid0 : id0 = itemId := by rw [← hid2]; exact hidm
        rcases hs.splitStatus id0 src h item hmemitem (by rw [hitemid, hid0]) with ⟨h1, h2⟩
        have hsp := getPart_status_of_both h1 h2 p
        rw [hstatus] at hsp
        cases hsp
      · subst heq
        exact hs.splitStatus id0 src h i2 hi hid2
    splitUsed := hs.splitUsed
    splitNotBatch := hs.splitNotBatch
    splitNoExpand := by
      intro id0 src h q hq
      rcases List.mem_cons.1 hq with hpeq | h2
      · injection hpeq with he1 he2
        rcases hs.splitStatus id0 src h item hmemitem (by rw [hitemid, he1]) with ⟨h1, h2⟩
        have hsp := getPart_status_of_both h1 h2 p
        rw [hstatus] at hsp
        cases hsp
      · exact hs.splitNoExpand id0 src h q h2
    expandStatus := by
      intro id0 q h i2 hi2 hid2
      unfold markExpanding at hi2
      rcases List.mem_cons.1 h with hpeq | h2
      · injection hpeq with he1 he2
        subst he1
        subst he2
        rcases mem_mapItem _ _ _ _ hi2 with ⟨i, hi, ⟨hidm, rfl⟩ | ⟨hidm, heq⟩⟩
        · exact setExpanding_status_self q i
        · subst heq
          exact absurd hid2 hidm
      · rcases mem_mapItem _ _ _ _ hi2 with ⟨i, hi, ⟨hidm, rfl⟩ | ⟨hidm, heq⟩⟩
        · rw [setExpanding_id] at hid2
          have hid0 : id0 = itemId := by rw [← hid2]; exact hidm
          by_cases hqp : q = p
          · subst hqp
            rw [hid0] at h2
            exact absurd h2 hnotpend
          · rw [setExpanding_ne p q i hqp]
            exact hs.expandStatus id0 q h2 i hi hid2
        · subst heq
          exact hs.expandStatus id0 q h2 i2 hi hid2
    expandUsed := by
      intro id0 q h
      rcases List.mem_cons.1 h with hpeq | h2
      · injection hpeq with he1 _
        subst he1
        rw [← hitemid]
        exact hs.itemsUsed item hmemitem
      · exact hs.expandUsed id0 q h2
    expandNodup := by
      rw [List.nodup_cons]
      exact ⟨hnotpend, hs.expandNodup⟩ }

/-- Every step preserves the invariant. -/
theorem inv_step {s : AppState} {us : List Update} {s2 : AppState}
    (hs : Inv s) (hstep : Step s us s2) : Inv s2 := by
  cases hstep with
  | upload newItems hfresh hnodup hinit => exact inv_upload hs hfresh hnodup hinit
  | saveKey k => exact inv_saveKey hs k
  | startBatch hkey hbatch hsplit => exact inv_startBatch hs hsplit
  | batchStep item rest hbatch hsplit => exact inv_batchStep hs hbatch
  | splitFail itemId src hsplit => exact inv_splitFail hs
  | splitOk itemId src u1 u2 hsplit => exact inv_splitOk hs hsplit
  | expandOk itemId p expanded hpend => exact inv_expandOk hs hpend
  | expandFail itemId p hpend => exact inv_expandFail hs hpend
  | retry itemId p item u hkey hfind hurl hne hstatus => exact inv_retry hs hfind hstatus
  | removeStep itemId => exact inv_remove hs itemId
  | clearStep => exact inv_clear hs

/-- Every reachable state satisfies the invariant. -/
theorem reach_inv {s : AppState} {h : List Update} (hr : Reach s h) : Inv s := by
  induction hr with
  | init k => exact inv_init k
  | step hr hstep ih => exact inv_step ih hstep

/-! ## Trace correspondence -/

/-- Folding an appended trace factors. -/
theorem applyTrace_append (h1 h2 : List Update) (items : List ProcessedImage) :
    applyTrace (h1 ++ h2) items = applyTrace h2 (applyTrace h1 items) := by
  unfold applyTrace
  rw [List.foldl_append]

/-- The items of a reachable state are the fold of its trace. -/
theorem reach_items {s : AppState} {h : List Update} (hr : Reach s h) :
    s.items = applyTrace h [] := by
  induction hr with
  | init k => rfl
  | step hr hstep ih =>
    rw [applyTrace_append, ← ih]
    cases hstep <;> rfl

/-- Prefix states of an extended trace agree. -/
theorem itemsAt_le (h us : List Update) (n : Nat) (hn : n ≤ h.length) :
    itemsAt (h ++ us) n = itemsAt h n := by
  unfold itemsAt
  rw [List.take_append_eq_append_take, Nat.sub_eq_zero_of_le hn, List.take_zero,
    List.append_nil]

/-- The state at the full trace length. -/
theorem itemsAt_full (h : List Update) : itemsAt h h.length = applyTrace h [] := by
  unfold itemsAt
  rw [List.take_length]

/-- States of an extended trace beyond the prefix. -/
theorem itemsAt_add (h us : List Update) (k : Nat) :
    itemsAt (h ++ us) (h.length + k) = applyTrace (us.take k) (itemsAt h h.length) := by
  unfold itemsAt
  rw [List.take_append_eq_append_take]
  have e1 : h.length + k - h.length = k := by omega
  have e2 : h.take (h.length + k) = h := List.take_of_length_le (by omega)
  rw [e1, e2, applyTrace_append, List.take_length]

/-- A map to a constant hitting some value gives that constant. -/
theorem option_map_const_eq {o : Option ProcessStatus} {c b : ProcessStatus}
    (h : o.map (fun _ => c) = some b) : b = c := by
  cases o with
  | none => cases h
  | some a => exact (Option.some.inj h).symm

/-- The carried status agrees with a uniform status of the matching
items. -/
theorem statusOf_eq_of_all {items : List ProcessedImage} {itemId : String}
    {p : PartNumber} {a c : ProcessStatus}
    (h : statusOf items itemId p = some a)
    (hall : ∀ i ∈ items, i.id = itemId → (getPart i p).status = c) : a = c := by
  unfold statusOf at h
  cases hfind : findItem items itemId with
  | none => rw [hfind] at h; cases h
  | some i =>
    rw [hfind] at h
    have h2 : (getPart i p).status = a := by simpa using h
    rw [← h2]
    exact hall i (findItem_mem hfind) (findItem_id hfind)

/-- An unchanged item list is a sound step. -/
theorem stepOK_refl (R : ProcessStatus → ProcessStatus → Bool)
    (items : List ProcessedImage) : StepOK R items items := by
  constructor
  · intro itemId p a b h1 h2 hne
    rw [h1] at h2
    exact absurd (Option.some.inj h2) hne
  · intro itemId p b h1 h2
    rw [h1] at h2
    cases h2

/-- The Splitting mark on an all-Idle target is a sound step. -/
theorem stepOK_markSplitting (items : List ProcessedImage) (tid : String)
    (hpre : ∀ i ∈ items, i.id = tid →
      i.splitPart1.status = ProcessStatus.idle ∧ i.splitPart2.status = ProcessStatus.idle) :
    StepOK actualTrans items (markSplitting tid items) := by
  constructor
  · intro itemId p a b h1 h2 hne
    rw [statusOf_markSplitting tid items itemId p] at h2
    by_cases hid : itemId = tid
    · rw [if_pos hid] at h2
      have hb : b = ProcessStatus.splitting := option_map_const_eq h2
      subst hid
      have ha : a = ProcessStatus.idle := by
        apply statusOf_eq_of_all h1
        intro i hi hd
        rcases hpre i hi hd with ⟨x1, x2⟩
        exact getPart_status_of_both x1 x2 p
      rw [ha, hb]
      rfl
    · rw [if_neg hid, h1] at h2
      exact absurd (Option.some.inj h2) hne
  · intro itemId p b h1 h2
    rw [statusOf_markSplitting tid items itemId p] at h2
    by_cases hid : itemId = tid
    · rw [if_pos hid, h1] at h2
      cases h2
    · rw [if_neg hid, h1] at h2
      cases h2

/-- The split store on an all-Splitting target is a sound step. -/
theorem stepOK_setSplitResult (items : List ProcessedImage) (tid u1 u2 : String)
    (hpre : ∀ i ∈ items, i.id = tid →
      i.splitPart1.status = ProcessStatus.splitting ∧
      i.splitPart2.status = ProcessStatus.splitting) :
    StepOK actualTrans items (setSplitResult tid u1 u2 items) := by
  constructor
  · intro itemId p a b h1 h2 hne
    rw [statusOf_setSplitResult tid u1 u2 items itemId p] at h2
    by_cases hid : itemId = tid
    · rw [if_pos hid] at h2
      have hb : b = ProcessStatus.idle := option_map_const_eq h2
      subst hid
      have ha : a = ProcessStatus.splitting := by
        apply statusOf_eq_of_all h1
        intro i hi hd
        rcases hpre i hi hd with ⟨x1, x2⟩
        exact getPart_status_of_both x1 x2 p
      rw [ha, hb]
      rfl
    · rw [if_neg hid, h1] at h2
      exact absurd (Option.some.inj h2) hne
  · intro itemId p b h1 h2
    rw [statusOf_setSplitResult tid u1 u2 items itemId p] at h2
    by_cases hid : itemId = tid
    · rw [if_pos hid, h1] at h2
      cases h2
    · rw [if_neg hid, h1] at h2
      cases h2

/-- The Expanding mark on a half currently Idle or Error is a sound
step. -/
theorem stepOK_markExpanding (items : List ProcessedImage) (tid : String) (pt : PartNumber)
    (hpre : ∀ a, statusOf items tid pt = some a →
      a = ProcessStatus.idle ∨ a = ProcessStatus.error) :
    StepOK actualTrans items (markExpanding tid pt items) := by
  constructor
  · intro itemId p a b h1 h2 hne
    rw [statusOf_markExpanding tid pt items itemId p] at h2
    by_cases hid : itemId = tid ∧ p = pt
    · rw [if_pos hid] at h2
      have hb : b = ProcessStatus.expanding := option_map_const_eq h2
      rcases hid with ⟨hi1, hi2⟩
      subst hi1
      subst hi2
      rcases hpre a h1 with ha | ha <;> rw [ha, hb] <;> rfl
    · rw [if_neg hid, h1] at h2
      exact absurd (Option.some.inj h2) hne
  · intro itemId p b h1 h2
    rw [statusOf_markExpanding tid pt items itemId p] at h2
    by_cases hid : itemId = tid ∧ p = pt
    · rw [if_pos hid, h1] at h2
      cases h2
    · rw [if_neg hid, h1] at h2
      cases h2

/-- The Done mark on a half currently Expanding is a sound step. -/
theorem stepOK_markDone (items : List ProcessedImage) (tid : String) (pt : PartNumber)
    (e : String)
    (hpre : ∀ a, statusOf items tid pt = some a → a = ProcessStatus.expanding) :
    StepOK actualTrans items (markDone tid pt e items) := by
  constructor
  · intro itemId p a b h1 h2 hne
    rw [statusOf_markDone tid pt e items itemId p] at h2
    by_cases hid : itemId = tid ∧ p = pt
    · rw [if_pos hid] at h2
      have hb : b = ProcessStatus.done := option_map_const_eq h2
      rcases hid with ⟨hi1, hi2⟩
      subst hi1
      subst hi2
      rw [hpre a h1, hb]
      rfl
    · rw [if_neg hid, h1] at h2
      exact absurd (Option.some.inj h2) hne
  · intro itemId p b h1 h2
    rw [statusOf_markDone tid pt e items itemId p] at h2
    by_cases hid : itemId = tid ∧ p = pt
    · rw [if_pos hid, h1] at h2
      cases h2
    · rw [if_neg hid, h1] at h2
      cases h2

/-- The Error mark on a half currently Expanding is a sound step. -/
theorem stepOK_markError (items : List ProcessedImage) (tid : String) (pt : PartNumber)
    (hpre : ∀ a, statusOf items tid pt = some a → a = ProcessStatus.expanding) :
    StepOK actualTrans items (markError tid pt items) := by
  constructor
  · intro itemId p a b h1 h2 hne
    rw [statusOf_markError tid pt items itemId p] at h2
    by_cases hid : itemId = tid ∧ p = pt
    · rw [if_pos hid] at h2
      have hb : b = ProcessStatus.error := option_map_const_eq h2
      rcases hid with ⟨hi1, hi2⟩
      subst hi1
      subst hi2
      rw [hpre a h1, hb]
      rfl
    · rw [if_neg hid, h1] at h2
      exact absurd (Option.some.inj h2) hne
  · intro itemId p b h1 h2
    rw [statusOf_markError tid pt items itemId p] at h2
    by_cases hid : itemId = tid ∧ p = pt
    · rw [if_pos hid, h1] at h2
      cases h2
    · rw [if_neg hid, h1] at h2
      cases h2

/-- Prepending fresh pending items is a sound step. -/
theorem stepOK_addItems (items newItems : List ProcessedImage)
    (hnew : ∀ i ∈ newItems, i.splitPart1 = initPart ∧ i.splitPart2 = initPart)
    (hdisj : ∀ i ∈ newItems, ∀ j ∈ items, i.id ≠ j.id) :
    StepOK actualTrans items (newItems ++ items) := by
  have happ : ∀ itemId, findItem (newItems ++ items) itemId =
      (findItem newItems itemId).or (findItem items itemId) := by
    intro itemId
    unfold findItem
    rw [List.find?_append]
  constructor
  · intro itemId p a b h1 h2 hne
    unfold statusOf at h1 h2
    rw [happ] at h2
    cases hfind : findItem items itemId with
    | none => rw [hfind] at h1; cases h1
    | some i0 =>
      have hnewnone : findItem newItems itemId = none := by
        unfold findItem
        rw [List.find?_eq_none]
        intro x hx hbeq
        rw [beq_iff_eq] at hbeq
        have hx0 : x.id ≠ i0.id := hdisj x hx i0 (findItem_mem hfind)
        rw [hbeq, findItem_id hfind] at hx0
        exact hx0 rfl
      rw [hfind] at h1
      rw [hnewnone, hfind] at h2
      have : some a = some b := by rw [← h1, ← h2]; rfl
      exact absurd (Option.some.inj this) hne
  · intro itemId p b h1 h2
    unfold statusOf at h1 h2
    rw [happ] at h2
    cases hfindn : findItem newItems itemId with
    | none =>
      rw [hfindn] at h2
      cases hfind : findItem items itemId with
      | none => rw [hfind] at h2; cases h2
      | some i0 => rw [hfind] at h1; cases h1
    | some j =>
      rw [hfindn] at h2
      have hj : b = (getPart j p).status := by
        have := Option.some.inj h2
        rw [← this]
      rcases hnew j (findItem_mem hfindn) with ⟨hj1, hj2⟩
      rw [hj]
      cases p <;> simp [getPart, hj1, hj2, initPart]

/-- Removing items is a sound step. -/
theorem stepOK_removeItem (items : List ProcessedImage) (tid : String) :
    StepOK actualTrans items (removeItem tid items) := by
  constructor
  · intro itemId p a b h1 h2 hne
    unfold statusOf at h1 h2
    rw [findItem_removeItem tid itemId items] at h2
    by_cases hid : itemId = tid
    · rw [if_pos hid] at h2
      cases h2
    · rw [if_neg hid] at h2
      rw [h1] at h2
      exact absurd (Option.some.inj h2) hne
  · intro itemId p b h1 h2
    unfold statusOf at h1 h2
    rw [findItem_removeItem tid itemId items] at h2
    by_cases hid : itemId = tid
    · rw [if_pos hid] at h2
      cases h2
    · rw [if_neg hid] at h2
      rw [h1] at h2
      cases h2

/-- Clearing the list is a sound step. -/
theorem stepOK_clear (items : List ProcessedImage) :
    StepOK actualTrans items [] := by
  constructor
  · intro itemId p a b h1 h2 hne
    simp [statusOf, findItem] at h2
  · intro itemId p b h1 h2
    simp [statusOf, findItem] at h2

/-- Reduces trace soundness of one step to its in-range boundaries. -/
theorem stepOK_take (us : List Update) (base : List ProcessedImage)
    (hall : ∀ k, k < us.length →
      StepOK actualTrans (applyTrace (us.take k) base) (applyTrace (us.take (k + 1)) base)) :
    ∀ k, StepOK actualTrans (applyTrace (us.take k) base)
      (applyTrace (us.take (k + 1)) base) := by
  intro k
  by_cases hk : k < us.length
  · exact hall k hk
  · have h1 : us.take k = us := List.take_of_length_le (by omega)
    have h2 : us.take (k + 1) = us := List.take_of_length_le (by omega)
    rw [h1, h2]
    exact stepOK_refl _ _

/-- Every reachable trace is sound for the realized transition relation:
statuses of existing halves only change along actualTrans and appearing
halves appear Idle. -/
theorem reach_trace_ok {s : AppState} {h : List Update} (hr : Reach s h) :
    TraceOK actualTrans h := by
  induction hr with
  | init k =>
    intro n
    constructor
    · intro itemId p a b h1 h2 hne
      simp [itemsAt, applyTrace, statusOf, findItem] at h1
    · intro itemId p b h1 h2
      simp [itemsAt, applyTrace, statusOf, findItem] at h2
  | step hr hstep ih =>
    rename_i s0 h0 us s2
    intro n
    by_cases hn : n + 1 ≤ h0.length
    · rw [itemsAt_le h0 us n (by omega), itemsAt_le h0 us (n + 1) hn]
      exact ih n
    · have hinv : Inv s0 := reach_inv hr
      have hbase : itemsAt h0 h0.length = s0.items := by
        rw [itemsAt_full]
        exact (reach_items hr).symm
      obtain ⟨k, rfl⟩ : ∃ k, n = h0.length + k := ⟨n - h0.length, by omega⟩
      have e1 : itemsAt (h0 ++ us) (h0.length + k) = applyTrace (us.take k) s0.items := by
        rw [itemsAt_add, hbase]
      have e2 : itemsAt (h0 ++ us) (h0.length + k + 1) =
          applyTrace (us.take (k + 1)) s0.items := by
        have e3 : h0.length + k + 1 = h0.length + (k + 1) := by omega
        rw [e3, itemsAt_add, hbase]
      rw [e1, e2]
      cases hstep with
      | upload newItems hfresh hnodup hinit =>
        apply stepOK_take
        intro j hj
        cases j with
        | zero =>
          apply stepOK_addItems s0.items newItems hinit
          intro i hi x hx hbeq
          exact hfresh i hi (hbeq ▸ hinv.itemsUsed x hx)
        | succ j2 => exact absurd hj (by simp)
      | saveKey k2 => exact stepOK_take [] s0.items (fun j hj => absurd hj (by simp)) k
      | startBatch hkey hbatch hsplit =>
        exact stepOK_take [] s0.items (fun j hj => absurd hj (by simp)) k
      | splitFail itemId src hsplit =>
        exact stepOK_take [] s0.items (fun j hj => absurd hj (by simp)) k
      | batchStep item rest hbatch hsplit =>
        apply stepOK_take
        intro j hj
        cases j with
        | zero =>
          apply stepOK_markSplitting s0.items item.id
          apply hinv.batchIdle item
          rw [hbatch]
          exact List.mem_cons_self item rest
        | succ j2 => exact absurd hj (by simp)
      | splitOk itemId src u1 u2 hsplit =>
        apply stepOK_take
        intro j hj
        cases j with
        | zero =>
          apply stepOK_setSplitResult s0.items itemId u1 u2
          exact hinv.splitStatus itemId src hsplit
        | succ j2 =>
          cases j2 with
          | zero =>
            apply stepOK_markExpanding _ itemId PartNumber.p1
            intro a ha
            left
            have ha2 : statusOf (setSplitResult itemId u1 u2 s0.items) itemId
                PartNumber.p1 = some a := ha
            rw [statusOf_setSplitResult itemId u1 u2 s0.items itemId PartNumber.p1,
              if_pos rfl] at ha2
            exact option_map_const_eq ha2
          | succ j3 =>
            cases j3 with
            | zero =>
              apply stepOK_markExpanding _ itemId PartNumber.p2
              intro a ha
              left
              have ha2 : statusOf (markExpanding itemId PartNumber.p1
                  (setSplitResult itemId u1 u2 s0.items)) itemId PartNumber.p2 = some a := ha
              rw [statusOf_markExpanding itemId PartNumber.p1 _ itemId PartNumber.p2,
                if_neg (fun hc => by cases hc.2)] at ha2
              rw [statusOf_setSplitResult itemId u1 u2 s0.items itemId PartNumber.p2,
                if_pos rfl] at ha2
              exact option_map_const_eq ha2
            | succ j4 => exact absurd hj (by simp)
      | expandOk itemId p expanded hpend =>
        apply stepOK_take
        intro j hj
        cases j with
        | zero =>
          apply stepOK_markDone s0.items itemId p expanded
          intro a ha
          exact statusOf_eq_of_all ha (fun i hi hd => hinv.expandStatus itemId p hpend i hi hd)
        | succ j2 => exact absurd hj (by simp)
      | expandFail itemId p hpend =>
        apply stepOK_take
        intro j hj
        cases j with
        | zero =>
          apply stepOK_markError s0.items itemId p
          intro a ha
          exact statusOf_eq_of_all ha (fun i hi hd => hinv.expandStatus itemId p hpend i hi hd)
        | succ j2 => exact absurd hj (by simp)
      | retry itemId p item u hkey hfind hurl hne hstatus =>
        apply stepOK_take
        intro j hj
        cases j with
        | zero =>
          apply stepOK_markExpanding s0.items itemId p
          intro a ha
          right
          unfold statusOf at ha
          rw [hfind] at ha
          have h3 : (getPart item p).status = a := by simpa using ha
          rw [← h3]
          exact hstatus
        | succ j2 => exact absurd hj (by simp)
      | removeStep itemId =>
        apply stepOK_take
        intro j hj
        cases j with
        | zero => exact stepOK_removeItem s0.items itemId
        | succ j2 => exact absurd hj (by simp)
      | clearStep =>
        apply stepOK_take
        intro j hj
        cases j with
        | zero => exact stepOK_clear s0.items
        | succ j2 => exact absurd hj (by simp)

/-- Along a sound trace, a half observed Done was Expanding earlier. -/
theorem done_after_expanding (h : List Update) (htr : TraceOK actualTrans h) :
    ∀ n itemId p, statusOf (itemsAt h n) itemId p = some ProcessStatus.done →
      ∃ m, m < n ∧ statusOf (itemsAt h m) itemId p = some ProcessStatus.expanding := by
  intro n
  induction n with
  | zero =>
    intro itemId p h0
    simp [itemsAt, applyTrace, statusOf, findItem] at h0
  | succ n ih =>
    intro itemId p hdone
    cases hprev : statusOf (itemsAt h n) itemId p with
    | none =>
      have hb := (htr n).2 itemId p ProcessStatus.done hprev hdone
      cases hb
    | some a =>
      by_cases ha : a = ProcessStatus.done
      · subst ha
        rcases ih itemId p hprev with ⟨m, hm, hexp⟩
        exact ⟨m, by omega, hexp⟩
      · have htrans := (htr n).1 itemId p a ProcessStatus.done hprev hdone ha
        have haexp : a = ProcessStatus.expanding := by
          cases a with
          | idle => exact absurd htrans (by decide)
          | splitting => exact absurd htrans (by decide)
          | expanding => rfl
          | done => exact absurd rfl ha
          | error => exact absurd htrans (by decide)
        subst haexp
        exact ⟨n, by omega, hprev⟩

/-- A concrete run: upload one image, start the batch, split it
successfully and dispatch both halves. -/
theorem demo_reach : ∃ s, Reach s demoTrace := by
  have hu : Step (initState "k") [Update.addItems [traceItem]]
      { apiKey := "k", items := [traceItem], batch := [], pendingSplit := none,
        pendingExpands := [], usedIds := ["t"] } :=
    Step.upload (initState "k") [traceItem] (by decide) (by decide) (by decide)
  have hb : Step
      { apiKey := "k", items := [traceItem], batch := [], pendingSplit := none,
        pendingExpands := [], usedIds := ["t"] } []
      { apiKey := "k", items := [traceItem], batch := [traceItem], pendingSplit := none,
        pendingExpands := [], usedIds := ["t"] } :=
    Step.startBatch _ (by decide) rfl rfl
  have hbs : Step
      { apiKey := "k", items := [traceItem], batch := [traceItem], pendingSplit := none,
        pendingExpands := [], usedIds := ["t"] } [Update.markSplitting "t"]
      { apiKey := "k", items := [traceItemSplitting], batch := [],
        pendingSplit := some ("t", "src"), pendingExpands := [], usedIds := ["t"] } :=
    Step.batchStep _ traceItem [] rfl rfl
  have hso : Step
      { apiKey := "k", items := [traceItemSplitting], batch := [],
        pendingSplit := some ("t", "src"), pendingExpands := [], usedIds := ["t"] }
      [Update.setSplitResult "t" "c1" "c2", Update.markExpanding "t" PartNumber.p1,
        Update.markExpanding "t" PartNumber.p2]
      { apiKey := "k", items := [traceItemExpanding], batch := [],
        pendingSplit := none,
        pendingExpands := [("t", PartNumber.p1), ("t", PartNumber.p2)],
        usedIds := ["t"] } :=
    Step.splitOk _ "t" "src" "c1" "c2" rfl
  exact ⟨_, Reach.step (Reach.step (Reach.step (Reach.step (Reach.init "k") hu) hb) hbs) hso⟩

/-- C2 (claimed) is false: on the concrete run the first half moves from
Splitting back to Idle when the split result is stored, a backward
transition in the claimed order that is not the retry edge. -/
theorem status_claim_false :
    ¬ (∀ (s : AppState) (h : List Update), Reach s h →
      ∀ (n : Nat) (itemId : String) (p : PartNumber) (a b : ProcessStatus),
        statusOf (itemsAt h n) itemId p = some a →
        statusOf (itemsAt h (n + 1)) itemId p = some b → a ≠ b →
        claimedTrans a b = true) := by
  intro hcl
  rcases demo_reach with ⟨s, hs⟩
  have hbad := hcl s demoTrace hs 2 "t" PartNumber.p1 ProcessStatus.splitting
    ProcessStatus.idle (by decide) (by decide) (by decide)
  exact absurd hbad (by decide)

/-- C2 (amended): along every reachable trace, at setItems granularity,
every status change of an existing half follows the realized relation
(Idle to Splitting on batch start, Splitting back to Idle when the crops
are stored, Idle to Expanding on dispatch, Expanding to Done or Error on
resolution, and the single backward edge Error to Expanding on explicit
retry — in particular Done and Error change only through retry); every
half first appears Idle; and a half observed Done passed through
Expanding earlier in the trace. -/
theorem half_status_evolution (s : AppState) (h : List Update) (hr : Reach s h) :
    TraceOK actualTrans h ∧
    (∀ n itemId p, statusOf (itemsAt h n) itemId p = some ProcessStatus.done →
      ∃ m, m < n ∧ statusOf (itemsAt h m) itemId p = some ProcessStatus.expanding) := by
  have htr := reach_trace_ok hr
  exact ⟨htr, done_after_expanding h htr⟩

/-- Closed instance of the amended C2 theorem on the concrete run. -/
theorem half_status_evolution_witness :
    TraceOK actualTrans demoTrace ∧
    (∀ n itemId p, statusOf (itemsAt demoTrace n) itemId p = some ProcessStatus.done →
      ∃ m, m < n ∧
        statusOf (itemsAt demoTrace m) itemId p = some ProcessStatus.expanding) := by
  rcases demo_reach with ⟨s, hs⟩
  exact half_status_evolution s demoTrace hs

end SplitExpand
